import Mathlib

set_option maxRecDepth 100000

/-!
# Verification of the North Stream RSS-to-Telegram pipeline

Shallow embedding of `src/scripts/rss-to-telegram.mjs` (the current version of
the script, i.e. the second document in the file: `canonicalId`,
`normalizeForMatch`, `matchesKeywords`, `normalizeUrl`, `loadState` and the
per-entry loop of `main`).

Strings are modelled as `List Char` internally (Lean `String` is a wrapper
around `List Char` in this toolchain).  The WHATWG `URL` constructor used by
`normalizeUrl` is modelled by an explicit parser `parseUrl` covering the
generic syntax `scheme://[userinfo@]host[:port][/path][?query][#fragment]`
plus the opaque-path form `scheme:opaque[?query][#fragment]` for URLs without
an authority, together with the observable normalisations the code relies on
(scheme lowercasing by the parser, `URLSearchParams` splitting of the query
on `&`/first `=` with empty segments skipped, re-serialisation of the query
only when a tracking parameter was actually deleted).  Percent-encoding
canonicalisation, IDNA host mapping and dot-segment removal are outside the
model; none of the claims below depends on them.
-/

namespace NorthStream

/-- Delimiters that terminate the authority component of a URL. -/
def authDelim (c : Char) : Bool := (c == '/') || (c == '?') || (c == '#')

/-- Characters allowed in a URL scheme after the leading letter. -/
def schemeChar (c : Char) : Bool := c.isAlpha || c.isDigit || (c == '+') || (c == '-') || (c == '.')

/-- Split a list at the first occurrence of `t`; `none` if `t` does not occur.
The first component does not contain `t`. -/
def splitFirst (t : Char) : List Char → Option (List Char × List Char)
  | [] => none
  | c :: cs =>
    if c = t then some ([], cs)
    else
      match splitFirst t cs with
      | some (a, b) => some (c :: a, b)
      | none => none

/-- Split a list at the last occurrence of `t`; the second component does not
contain `t`. -/
def splitLast (t : Char) (l : List Char) : Option (List Char × List Char) :=
  match splitFirst t l.reverse with
  | some (a, b) => some (b.reverse, a.reverse)
  | none => none

/-- Split a list on every occurrence of the separator `t` (like
`String.prototype.split` in JS: `n` separators produce `n+1` pieces). -/
def splitOnChar (t : Char) : List Char → List (List Char)
  | [] => [[]]
  | c :: cs =>
    if c = t then [] :: splitOnChar t cs
    else
      match splitOnChar t cs with
      | [] => [[c]]
      | a :: rest => (c :: a) :: rest

/-- Parsed URL record, the observable fields of a WHATWG `URL` object that
`normalizeUrl` reads.  `hasAuth = false` marks an opaque-path URL (no `//`
after the scheme); its `host` is empty and `userinfo`/`port` are `none`. -/
structure UrlRec where
  scheme : List Char
  hasAuth : Bool
  userinfo : Option (List Char)
  host : List Char
  port : Option (List Char)
  path : List Char
  query : Option (List Char)
  fragment : Option (List Char)
  deriving Repr, DecidableEq

/-- A character that continues the path component. -/
def pathStop (c : Char) : Bool := (c != '?') && (c != '#')

/-- A character that continues the query component. -/
def fragStop (c : Char) : Bool := c != '#'

/-- Parse `[path][?query][#fragment]`. -/
def parseTail (r : List Char) : List Char × Option (List Char) × Option (List Char) :=
  match r.dropWhile pathStop with
  | '?' :: r3 =>
    match r3.dropWhile fragStop with
    | '#' :: r5 => (r.takeWhile pathStop, some (r3.takeWhile fragStop), some r5)
    | _ => (r.takeWhile pathStop, some (r3.takeWhile fragStop), none)
  | '#' :: r3 => (r.takeWhile pathStop, none, some r3)
  | _ => (r.takeWhile pathStop, none, none)

/-- Parse `[userinfo@]host[:port]` (userinfo ends at the last `@`, the port
starts at the first `:` after it); fails when the port is not all digits
(the WHATWG parser throws on a non-numeric port). -/
def parseAuthority (auth : List Char) : Option (Option (List Char) × List Char × Option (List Char)) :=
  match splitLast '@' auth with
  | some (u, hp) =>
    match splitFirst ':' hp with
    | some (h, pt) => if pt.all Char.isDigit then some (some u, h, some pt) else none
    | none => some (some u, hp, none)
  | none =>
    match splitFirst ':' auth with
    | some (h, pt) => if pt.all Char.isDigit then some (none, h, some pt) else none
    | none => some (none, auth, none)

/-- Model of `new URL(u)` restricted to the fields `normalizeUrl` observes.
Fails (like the constructor throwing) on a missing/invalid scheme or a
non-numeric port. -/
def parseUrl (l : List Char) : Option UrlRec :=
  match l with
  | [] => none
  | c :: _ =>
    if c.isAlpha then
      match l.dropWhile schemeChar with
      | ':' :: '/' :: '/' :: r3 =>
        match parseAuthority (r3.takeWhile (fun c => !authDelim c)) with
        | some (ui, h, pt) =>
          some ⟨(l.takeWhile schemeChar).map Char.toLower, true, ui, h, pt,
            (parseTail (r3.dropWhile (fun c => !authDelim c))).1,
            (parseTail (r3.dropWhile (fun c => !authDelim c))).2.1,
            (parseTail (r3.dropWhile (fun c => !authDelim c))).2.2⟩
        | none => none
      | ':' :: r2 =>
        some ⟨(l.takeWhile schemeChar).map Char.toLower, false, none, [], none,
          (parseTail r2).1, (parseTail r2).2.1, (parseTail r2).2.2⟩
      | _ => none
    else none

/-- One `&`-segment of a query, split at its first `=` into name and value
(missing `=` gives an empty value), as `URLSearchParams` does. -/
def parsePiece (piece : List Char) : List Char × List Char :=
  match splitFirst '=' piece with
  | some (n, v) => (n, v)
  | none => (piece, [])

/-- `URLSearchParams` parsing of a raw query (see `parsePiece`). -/
def parseQuery (q : List Char) : List (List Char × List Char) :=
  ((splitOnChar '&' q).filter (fun p => !p.isEmpty)).map parsePiece

/-- One `name=value` unit of the serialised query. -/
def serializePair (p : List Char × List Char) : List Char := p.1 ++ '=' :: p.2

/-- `URLSearchParams.toString`: `name=value` pairs joined with `&`. -/
def serializeQuery : List (List Char × List Char) → List Char
  | [] => []
  | [p] => serializePair p
  | p :: q :: ps => serializePair p ++ '&' :: serializeQuery (q :: ps)

/-- The fixed deny-list of tracking query parameters in `normalizeUrl`. -/
def trackingParams : List (List Char) :=
  ["utm_source", "utm_medium", "utm_campaign", "utm_term", "utm_content",
   "utm_id", "gclid", "fbclid", "mc_cid", "mc_eid", "ref"].map String.data

/-- `drop.has(k.toLowerCase())` on a parameter name. -/
def isTracking (n : List Char) : Bool := trackingParams.contains (n.map Char.toLower)

/-- `pathname.replace(/\/+$/, "")`: remove every trailing slash. -/
def stripTrailingSlashes (p : List Char) : List Char :=
  (p.reverse.dropWhile (fun c => c == '/')).reverse

/-- The query component of `normalizeUrl`'s output:
`url.search ? "?" + url.searchParams.toString() : ""` after the tracking
parameters were deleted.  `url.search` is the raw query while no parameter
has been deleted, and the re-serialised kept list once one has (deleting
re-serialises the query, and an empty parameter list serialises to a null
query). -/
def queryPart (q : Option (List Char)) : List Char :=
  let rawQ := q.getD []
  let pairs := parseQuery rawQ
  let kept := pairs.filter (fun p => !isTracking p.1)
  let mutated := pairs.any (fun p => isTracking p.1)
  let hasSearch := if mutated then !kept.isEmpty else !rawQ.isEmpty
  if hasSearch then '?' :: serializeQuery kept else []

/-- The `[?query]` tail of a rendered URL. -/
def renderQuery : Option (List Char) → List Char
  | some qs => '?' :: qs
  | none => []

/-- The parameter pairs surviving the tracking-parameter deletion. -/
def keptVal (q : Option (List Char)) : List (List Char × List Char) :=
  (parseQuery (q.getD [])).filter (fun p => !isTracking p.1)

/-- Truthiness of `url.search` at output time (see `queryPart`). -/
def hasSearchVal (q : Option (List Char)) : Bool :=
  if (parseQuery (q.getD [])).any (fun p => isTracking p.1) then !(keptVal q).isEmpty
  else !(q.getD []).isEmpty

/-- See `queryPart` for the `url.search`/`searchParams.toString()` part. -/
def normalizeUrlRec (r : UrlRec) : List Char :=
  r.scheme ++ ':' :: '/' :: '/' :: r.host.map Char.toLower ++ stripTrailingSlashes r.path
    ++ queryPart r.query

/-- `normalizeUrl` from the source: parse, normalise, rebuild; the
`catch` returns the empty string on a parse failure. -/
def normalizeUrl (u : String) : String :=
  match parseUrl u.data with
  | some r => String.mk (normalizeUrlRec r)
  | none => ""

/-! ## SHA-256

`crypto.createHash("sha256").update(s, "utf8").digest("hex")`, implemented
over `Nat` with explicit reduction mod `2^32`. -/

/-- UTF-8 encoding of one character, as byte values. -/
def utf8Bytes (c : Char) : List Nat :=
  let n := c.toNat
  if n < 0x80 then [n]
  else if n < 0x800 then [0xC0 + n / 64, 0x80 + n % 64]
  else if n < 0x10000 then [0xE0 + n / 4096, 0x80 + (n / 64) % 64, 0x80 + n % 64]
  else [0xF0 + n / 262144, 0x80 + (n / 4096) % 64, 0x80 + (n / 64) % 64, 0x80 + n % 64]

/-- UTF-8 bytes of a string. -/
def strBytes (l : List Char) : List Nat := l.flatMap utf8Bytes

/-- Rotate a 32-bit word (a `Nat` below `2^32`) right by `n`. -/
def rotr32 (n x : Nat) : Nat := x / 2 ^ n + (x % 2 ^ n) * 2 ^ (32 - n)

/-- SHA-256 round constants. -/
def sha256K : List Nat :=
  [1116352408, 1899447441, 3049323471, 3921009573, 961987163, 1508970993,
   2453635748, 2870763221, 3624381080, 310598401, 607225278, 1426881987,
   1925078388, 2162078206, 2614888103, 3248222580, 3835390401, 4022224774,
   264347078, 604807628, 770255983, 1249150122, 1555081692, 1996064986,
   2554220882, 2821834349, 2952996808, 3210313671, 3336571891, 3584528711,
   113926993, 338241895, 666307205, 773529912, 1294757372, 1396182291,
   1695183700, 1986661051, 2177026350, 2456956037, 2730485921, 2820302411,
   3259730800, 3345764771, 3516065817, 3600352804, 4094571909, 275423344,
   430227734, 506948616, 659060556, 883997877, 958139571, 1322822218,
   1537002063, 1747873779, 1955562222, 2024104815, 2227730452, 2361852424,
   2428436474, 2756734187, 3204031479, 3329325298]

/-- SHA-256 initial hash value. -/
def sha256H0 : List Nat :=
  [1779033703, 3144134277, 1013904242, 2773480762,
   1359893119, 2600822924, 528734635, 1541459225]

/-- Big-endian byte expansion of `n` into `len` bytes. -/
def toBytesBE (len n : Nat) : List Nat :=
  (List.range len).map fun i => n / 2 ^ (8 * (len - 1 - i)) % 256

/-- SHA-256 padding: `0x80`, zeros to 56 mod 64, then the 64-bit bit length. -/
def sha256Pad (m : List Nat) : List Nat :=
  let L := m.length
  m ++ 0x80 :: List.replicate ((119 - L % 64) % 64) 0 ++ toBytesBE 8 (L * 8)

/-- Split a byte list into 64-byte blocks (structural recursion on a fuel
counter large enough for the whole list, so that the kernel can reduce it). -/
def chunksAux : Nat → List Nat → List (List Nat)
  | 0, _ => []
  | _ + 1, [] => []
  | n + 1, l => l.take 64 :: chunksAux n (l.drop 64)

/-- Split a byte list into 64-byte blocks. -/
def chunks64 (l : List Nat) : List (List Nat) := chunksAux (l.length / 64 + 1) l

/-- Message schedule: 16 words from the block, extended to 64. -/
def sha256Schedule (block : List Nat) : List Nat :=
  let w16 := (List.range 16).map fun i =>
    (block.getD (4 * i) 0) * 0x1000000 + (block.getD (4 * i + 1) 0) * 0x10000 +
      (block.getD (4 * i + 2) 0) * 0x100 + block.getD (4 * i + 3) 0
  (List.range 48).foldl (fun w _ =>
    let t := w.length
    let x := w.getD (t - 15) 0
    let y := w.getD (t - 2) 0
    let s0 := rotr32 7 x ^^^ rotr32 18 x ^^^ (x >>> 3)
    let s1 := rotr32 17 y ^^^ rotr32 19 y ^^^ (y >>> 10)
    w ++ [(w.getD (t - 16) 0 + s0 + w.getD (t - 7) 0 + s1) % 2 ^ 32]) w16

/-- One SHA-256 round on the 8-word working state. -/
def sha256Round (k w : Nat) (s : List Nat) : List Nat :=
  match s with
  | [a, b, c, d, e, f, g, h] =>
    let S1 := rotr32 6 e ^^^ rotr32 11 e ^^^ rotr32 25 e
    let ch := (e &&& f) ^^^ ((2 ^ 32 - 1 - e) &&& g)
    let t1 := (h + S1 + ch + k + w) % 2 ^ 32
    let S0 := rotr32 2 a ^^^ rotr32 13 a ^^^ rotr32 22 a
    let mj := (a &&& b) ^^^ (a &&& c) ^^^ (b &&& c)
    let t2 := (S0 + mj) % 2 ^ 32
    [(t1 + t2) % 2 ^ 32, a, b, c, (d + t1) % 2 ^ 32, e, f, g]
  | s => s

/-- Compression of one 64-byte block into the running hash. -/
def sha256Compress (H block : List Nat) : List Nat :=
  let w := sha256Schedule block
  let s := (List.range 64).foldl (fun s t => sha256Round (sha256K.getD t 0) (w.getD t 0) s) H
  List.zipWith (fun x y => (x + y) % 2 ^ 32) H s

/-- Lowercase hex digit. -/
def hexDigit (n : Nat) : Char := if n < 10 then Char.ofNat (48 + n) else Char.ofNat (87 + n)

/-- Lowercase hex of one byte. -/
def hexByte (n : Nat) : List Char := [hexDigit (n / 16), hexDigit (n % 16)]

/-- SHA-256 hex digest of a character list (UTF-8 encoded). -/
def sha256Hex (l : List Char) : List Char :=
  let H := (chunks64 (sha256Pad (strBytes l))).foldl sha256Compress sha256H0
  (H.flatMap (toBytesBE 4)).flatMap hexByte

/-- `sha256` from the source, on Lean strings. -/
def sha256 (s : String) : String := String.mk (sha256Hex s.data)

/-! ## Entries, normalisation for matching, keyword matcher -/

/-- JS `a || b` for an optional string field: `undefined` and the empty
string are falsy. -/
def jsOr (o : Option String) (d : String) : String :=
  match o with
  | some s => if s = "" then d else s
  | none => d

/-- A parsed feed item, with the fields the pipeline reads (all optional in
`rss-parser` output). -/
structure Entry where
  id : Option String := none
  guid : Option String := none
  link : Option String := none
  title : Option String := none
  contentSnippet : Option String := none
  summary : Option String := none
  isoDate : Option String := none
  pubDate : Option String := none
  categories : Option (List String) := none
  deriving Repr, DecidableEq

/-- `canonicalId` from the source:
`sha256(e.id || e.guid || ...)` with the link/title/date fallback joined by
a literal `|`. -/
def canonicalId (e : Entry) : String :=
  sha256 (jsOr e.id (jsOr e.guid
    (jsOr e.link "" ++ "|" ++ jsOr e.title "" ++ "|" ++ jsOr e.isoDate (jsOr e.pubDate ""))))

/-- Model of the lowercase mapping used by `toLowerCase()`: ASCII plus the
precomposed Latin letters covered by the `nfdChar` table below. -/
def lowerPairs : List (Char × Char) :=
  [('Á', 'á'), ('É', 'é'), ('Í', 'í'), ('Ó', 'ó'), ('Ö', 'ö'), ('Ő', 'ő'),
   ('Ú', 'ú'), ('Ü', 'ü'), ('Ű', 'ű')]

/-- Lowercase one character. -/
def jsLower (c : Char) : Char :=
  match List.lookup c lowerPairs with
  | some l => l
  | none => c.toLower

/-- Model of Unicode NFD on one character: decomposition table for the
precomposed Latin letters relevant to the repository's bilingual text;
other characters decompose to themselves. -/
def nfdChar (c : Char) : List Char :=
  let acute := Char.ofNat 0x301
  let diaeresis := Char.ofNat 0x308
  let doubleAcute := Char.ofNat 0x30B
  let table : List (Char × List Char) :=
    [('á', ['a', acute]), ('é', ['e', acute]), ('í', ['i', acute]),
     ('ó', ['o', acute]), ('ö', ['o', diaeresis]), ('ő', ['o', doubleAcute]),
     ('ú', ['u', acute]), ('ü', ['u', diaeresis]), ('ű', ['u', doubleAcute])]
  (List.lookup c table).getD [c]

/-- Combining diacritical mark (the `\p{Diacritic}` class restricted to the
U+0300 to U+036F block produced by the `nfdChar` table). -/
def isCombining (c : Char) : Bool := (0x300 ≤ c.toNat) && (c.toNat ≤ 0x36F)

/-- `normalizeForMatch` from the source: lowercase, NFD, strip combining
diacritics. -/
def normalizeForMatch (s : String) : String :=
  String.mk (((s.data.map jsLower).flatMap nfdChar).filter fun c => !isCombining c)

/-- Does `hay` start with `sub`? -/
def beginsWith : List Char → List Char → Bool
  | [], _ => true
  | _ :: _, [] => false
  | a :: s, b :: h => (a == b) && beginsWith s h

/-- Substring containment on character lists. -/
def hasSub (sub : List Char) : List Char → Bool
  | [] => sub.isEmpty
  | b :: h => beginsWith sub (b :: h) || hasSub sub h

/-- JS `hay.includes(sub)`. -/
def strIncludes (hay sub : String) : Bool := hasSub sub.data hay.data

/-- `Array.prototype.join(" ")`. -/
def joinSpace : List String → String
  | [] => ""
  | [s] => s
  | s :: t :: r => s ++ " " ++ joinSpace (t :: r)

/-- The haystack of `matchesKeywords`: normalised concatenation of title,
snippet (or summary), categories and link, joined with spaces. -/
def haystack (e : Entry) : String :=
  normalizeForMatch (joinSpace
    [jsOr e.title "",
     jsOr e.contentSnippet (jsOr e.summary ""),
     (match e.categories with | some l => joinSpace l | none => ""),
     jsOr e.link ""])

/-- `matchesKeywords` from the source: exclude terms first (any hit
rejects), then the include list (if non-empty, at least one must hit). -/
def matchesKeywords (kw ex : List String) (e : Entry) : Bool :=
  let hay := haystack e
  if (!ex.isEmpty) && ex.any (fun k => strIncludes hay k) then false
  else if (!kw.isEmpty) && !(kw.any fun k => strIncludes hay k) then false
  else true

/-- The coarse "why was it rejected" text in `main`: title and snippet only
(categories and link are not part of it). -/
def textForWhy (e : Entry) : String :=
  normalizeForMatch (jsOr e.title "" ++ " " ++ jsOr e.contentSnippet (jsOr e.summary ""))

/-! ## State and the per-entry pipeline of `main` -/

/-- In-memory dedup state: the two sets `loadState` builds. -/
structure SeenState where
  seen : List String
  seenLinks : List String
  deriving Repr, DecidableEq

/-- The persisted `state.json` layout (the blob stored in the gist).  The
spec's layout also names a `seen_titles` array; `loadState` in the source
reads only `seen` and `seen_links`. -/
structure StateBlob where
  seen : List String
  seen_links : List String
  seen_titles : List String
  deriving Repr, DecidableEq

/-- `loadState` on an existing, parsed blob: builds the two in-memory sets;
any `seen_titles` data in the blob is ignored. -/
def loadStateFromBlob (b : StateBlob) : SeenState := ⟨b.seen, b.seen_links⟩

/-- Running totals of one `main` invocation. -/
structure RunAcc where
  st : SeenState
  sent : Nat
  skippedByExclude : Nat
  skippedByKeywords : Nat
  deriving Repr, DecidableEq

/-- The dedup test of `main`:
`state.seen.has(id) || (nurl && state.seenLinks.has(nurl))`. -/
def isDuplicate (e : Entry) (st : SeenState) : Bool :=
  let id := canonicalId e
  let nurl := normalizeUrl (jsOr e.link "")
  st.seen.contains id || ((nurl != "") && st.seenLinks.contains nurl)

/-- The body of the per-entry loop of `main`.  Delivery is an external
collaborator; its outcome is modelled by the oracle `ok` (deterministic per
entry within a run): `ok e = false` is the `catch` branch of a failed send. -/
def stepEntry (ok : Entry → Bool) (kw ex : List String) (acc : RunAcc) (e : Entry) : RunAcc :=
  let id := canonicalId e
  let nurl := normalizeUrl (jsOr e.link "")
  if isDuplicate e acc.st then acc
  else if !matchesKeywords kw ex e then
    if (!ex.isEmpty) && ex.any (fun k => strIncludes (textForWhy e) k) then
      { acc with skippedByExclude := acc.skippedByExclude + 1 }
    else if !kw.isEmpty then
      { acc with skippedByKeywords := acc.skippedByKeywords + 1 }
    else acc
  else if ok e then
    { st := { seen := id :: acc.st.seen,
              seenLinks := if nurl != "" then nurl :: acc.st.seenLinks else acc.st.seenLinks },
      sent := acc.sent + 1,
      skippedByExclude := acc.skippedByExclude,
      skippedByKeywords := acc.skippedByKeywords }
  else acc

/-- One feed: keep the first `maxItems` items, process them oldest-first
(`[...items].reverse()`). -/
def processFeed (ok : Entry → Bool) (kw ex : List String) (maxItems : Nat)
    (acc : RunAcc) (items : List Entry) : RunAcc :=
  ((items.take maxItems).reverse).foldl (stepEntry ok kw ex) acc

/-- One full run of `main` over the parsed feeds (a feed whose fetch fails
is simply absent from the list), starting from a loaded state with all
counters zero. -/
def runFeeds (ok : Entry → Bool) (kw ex : List String) (maxItems : Nat)
    (st : SeenState) (feeds : List (List Entry)) : RunAcc :=
  feeds.foldl (processFeed ok kw ex maxItems) ⟨st, 0, 0, 0⟩

/-! ## Title signature (spec-modelled) -/

/-- Modelled from the spec: the "fixed bilingual stop-word set" of
`titleSignature` (spec section 4.2), which is absent from the source under
`src/`.  A representative English/Hungarian set; tokens of length at most 2
are dropped before this filter anyway. -/
def stopWords : List (List Char) :=
  (["the", "and", "for", "with", "this", "that", "from", "have", "was", "are",
    "egy", "nem", "hogy", "meg", "mar", "csak", "mint", "vagy", "ami", "azt"]).map String.data

/-- Lexicographic order on character lists (code-point order, the default
string sort). -/
def lexLe : List Char → List Char → Bool
  | [], _ => true
  | _ :: _, [] => false
  | a :: as, b :: bs =>
    if a.toNat < b.toNat then true
    else if b.toNat < a.toNat then false
    else lexLe as bs

/-- Insert into a `lexLe`-sorted list. -/
def insertLex (s : List Char) : List (List Char) → List (List Char)
  | [] => [s]
  | t :: ts => if lexLe s t then s :: t :: ts else t :: insertLex s ts

/-- Insertion sort by `lexLe`. -/
def sortLex (l : List (List Char)) : List (List Char) := l.foldr insertLex []

/-- Join character lists with a separator character. -/
def joinWith (sep : Char) : List (List Char) → List Char
  | [] => []
  | [x] => x
  | x :: y :: r => x ++ sep :: joinWith sep (y :: r)

/-- Modelled from the spec: `titleSignature` (spec section 4.2) is absent
from the source under `src/`.  Normalise the title, map non-alphanumeric
characters to spaces, tokenize, drop tokens of length at most 2 and
stop-words, keep the first 12 surviving tokens, sort lexicographically,
join with a space, and hash with SHA-256. -/
def titleSignature (title : String) : String :=
  let cleaned := (normalizeForMatch title).data.map fun c => if c.isAlphanum then c else ' '
  let tokens := (splitOnChar ' ' cleaned).filter fun t => !t.isEmpty
  let surviving := tokens.filter fun t => (2 < t.length) && !stopWords.contains t
  let sorted := sortLex (surviving.take 12)
  String.mk (sha256Hex (joinWith ' ' sorted))

/-- The selection the spec's words describe for `contentId`: the entry's
`id` when it is present (non-nullish), else `guid` when present, else the
`link|title|date` string — nullish coalescing, not JS truthiness. -/
def jsNullish (o : Option String) (d : String) : String := o.getD d

/-- `contentId` as the spec's words describe it (`id ?? guid ?? ...`). -/
def contentIdNullish (e : Entry) : String :=
  sha256 (jsNullish e.id (jsNullish e.guid
    (jsOr e.link "" ++ "|" ++ jsOr e.title "" ++ "|" ++ jsOr e.isoDate (jsOr e.pubDate ""))))

/-- Pointwise inclusion of seen-states. -/
def stateLE (s t : SeenState) : Prop :=
  (∀ x, x ∈ s.seen → x ∈ t.seen) ∧ (∀ x, x ∈ s.seenLinks → x ∈ t.seenLinks)

/-- One query-segment list is another with extra tracking-parameter
segments (non-empty segments whose parameter name is on the deny-list)
inserted: the formal reading of "differs only by the presence of tracking
query parameters". -/
inductive TrackInsSeg : List (List Char) → List (List Char) → Prop where
  | nil : TrackInsSeg [] []
  | keep (p : List Char) {a b : List (List Char)} :
      TrackInsSeg a b → TrackInsSeg (p :: a) (p :: b)
  | ins (p : List Char) {a b : List (List Char)} :
      p ≠ [] →
      isTracking (parsePiece p).1 = true →
      TrackInsSeg a b → TrackInsSeg (p :: a) b

/-! ## Theorems -/

/-- The keyword matcher rejects whenever some exclude term is a substring of
the haystack. -/
theorem matchesKeywords_false_of_exclude (kw ex : List String) (e : Entry)
    (h : ex.any (fun k => strIncludes (haystack e) k) = true) :
    matchesKeywords kw ex e = false := by
  have hne : ex.isEmpty = false := by
    cases ex with
    | nil => simp at h
    | cons a t => rfl
  unfold matchesKeywords
  simp [hne, h]

/-- A boolean that is not true is false. -/
theorem eqFalse {b : Bool} (h : ¬b = true) : b = false := by
  cases b
  · rfl
  · exact absurd rfl h

/-- An entry that is a duplicate, fails the keyword gate, or whose delivery
fails, leaves the seen-state and the sent counter untouched. -/
theorem stepEntry_not_delivered (ok : Entry → Bool) (kw ex : List String)
    (acc : RunAcc) (e : Entry)
    (h : matchesKeywords kw ex e = false ∨ ok e = false ∨ isDuplicate e acc.st = true) :
    (stepEntry ok kw ex acc e).st = acc.st ∧ (stepEntry ok kw ex acc e).sent = acc.sent := by
  unfold stepEntry
  split
  · exact ⟨rfl, rfl⟩
  · next hdup =>
    split
    · split
      · exact ⟨rfl, rfl⟩
      · split
        · exact ⟨rfl, rfl⟩
        · exact ⟨rfl, rfl⟩
    · next hmt =>
      have hm : matchesKeywords kw ex e = true := by
        cases hv : matchesKeywords kw ex e
        · rw [hv] at hmt
          exact absurd rfl hmt
        · rfl
      split
      · next hok =>
        rcases h with h | h | h
        · rw [h] at hm
          exact absurd hm (by simp)
        · rw [h] at hok
          exact absurd hok (by simp)
        · exact absurd h hdup
      · exact ⟨rfl, rfl⟩

/-- C5: For every entry and every pair of include/exclude term lists, if any
normalized exclude term is a substring of the entry's normalized haystack,
the keyword matcher rejects the entry and it is never delivered (state and
sent counter never move), even when include terms also match — exclusion
dominates inclusion. -/
theorem claim5_exclude_dominates (ok : Entry → Bool) (kw ex : List String)
    (acc : RunAcc) (e : Entry)
    (h : ex.any (fun k => strIncludes (haystack e) k) = true) :
    matchesKeywords kw ex e = false ∧
      (stepEntry ok kw ex acc e).sent = acc.sent ∧
      (stepEntry ok kw ex acc e).st = acc.st := by
  have hm := matchesKeywords_false_of_exclude kw ex e h
  have hn := stepEntry_not_delivered ok kw ex acc e (Or.inl hm)
  exact ⟨hm, hn.2, hn.1⟩

/-- C5 witness: include term "storm" matches, exclude term "sport" also
matches, the entry is rejected and not delivered. -/
theorem claim5_witness :
    (["sport"].any (fun k =>
        strIncludes (haystack { title := some "Storm disrupts sport events" }) k) = true) ∧
      matchesKeywords ["storm"] ["sport"] { title := some "Storm disrupts sport events" } = false ∧
      (stepEntry (fun _ => true) ["storm"] ["sport"] ⟨⟨[], []⟩, 0, 0, 0⟩
          { title := some "Storm disrupts sport events" }).sent = 0 ∧
      (stepEntry (fun _ => true) ["storm"] ["sport"] ⟨⟨[], []⟩, 0, 0, 0⟩
          { title := some "Storm disrupts sport events" }).st = ⟨[], []⟩ := by
  have h : (["sport"].any (fun k =>
      strIncludes (haystack { title := some "Storm disrupts sport events" }) k) = true) := by decide
  have := claim5_exclude_dominates (fun _ => true) ["storm"] ["sport"] ⟨⟨[], []⟩, 0, 0, 0⟩
    { title := some "Storm disrupts sport events" } h
  exact ⟨h, this.1, this.2.1, this.2.2⟩

/-- C6: With an empty include list the matcher accepts exactly the
non-excluded entries, and every non-duplicate, non-excluded entry whose
delivery succeeds is delivered. -/
theorem claim6_empty_include_mode (ok : Entry → Bool) (ex : List String)
    (acc : RunAcc) (e : Entry) :
    (matchesKeywords [] ex e = !(ex.any fun k => strIncludes (haystack e) k)) ∧
      (isDuplicate e acc.st = false →
        (ex.any fun k => strIncludes (haystack e) k) = false →
        ok e = true →
        (stepEntry ok [] ex acc e).sent = acc.sent + 1) := by
  constructor
  · unfold matchesKeywords
    cases hx : ex.any fun k => strIncludes (haystack e) k
    · simp [hx]
    · have hne : ex.isEmpty = false := by
        cases ex with
        | nil => simp at hx
        | cons a t => rfl
      simp [hx, hne]
  · intro hdup hx hok
    have hm : matchesKeywords [] ex e = true := by
      unfold matchesKeywords
      simp [hx]
    unfold stepEntry
    simp [hdup, hm, hok]

/-- C6 witness at a concrete non-excluded, non-duplicate entry. -/
theorem claim6_witness :
    (stepEntry (fun _ => true) [] ["sport"] ⟨⟨[], []⟩, 0, 0, 0⟩
        { title := some "Quiet news day" }).sent = 1 :=
  (claim6_empty_include_mode (fun _ => true) ["sport"] ⟨⟨[], []⟩, 0, 0, 0⟩
    { title := some "Quiet news day" }).2 (by decide) (by decide) rfl

/-- C7: When the delivery attempt fails, no fingerprint key is added to the
in-memory state and the sent counter is unchanged; moreover the state is
only ever extended after a successful delivery of an entry that passed the
dedup and keyword gates. -/
theorem claim7_failed_send_not_marked (ok : Entry → Bool) (kw ex : List String)
    (acc : RunAcc) (e : Entry) (h : ok e = false) :
    (stepEntry ok kw ex acc e).st = acc.st ∧
      (stepEntry ok kw ex acc e).sent = acc.sent ∧
      (∀ g : Entry → Bool, (stepEntry g kw ex acc e).st ≠ acc.st →
        g e = true ∧ matchesKeywords kw ex e = true ∧ isDuplicate e acc.st = false) := by
  have hn := stepEntry_not_delivered ok kw ex acc e (Or.inr (Or.inl h))
  refine ⟨hn.1, hn.2, ?_⟩
  intro g hne
  by_cases hg : g e = true
  · by_cases hm : matchesKeywords kw ex e = true
    · by_cases hdup : isDuplicate e acc.st = true
      · exact absurd (stepEntry_not_delivered g kw ex acc e (Or.inr (Or.inr hdup))).1 hne
      · exact ⟨hg, hm, eqFalse hdup⟩
    · exact absurd (stepEntry_not_delivered g kw ex acc e (Or.inl (eqFalse hm))).1 hne
  · exact absurd (stepEntry_not_delivered g kw ex acc e (Or.inr (Or.inl (eqFalse hg)))).1 hne

/-- C7 witness: a failed delivery of a fresh matching entry leaves state and
counter untouched. -/
theorem claim7_witness :
    (stepEntry (fun _ => false) [] [] ⟨⟨[], []⟩, 0, 0, 0⟩
        { title := some "Anything" }).st = ⟨[], []⟩ ∧
      (stepEntry (fun _ => false) [] [] ⟨⟨[], []⟩, 0, 0, 0⟩
          { title := some "Anything" }).sent = 0 := by
  have := claim7_failed_send_not_marked (fun _ => false) [] [] ⟨⟨[], []⟩, 0, 0, 0⟩
    { title := some "Anything" } rfl
  exact ⟨this.1, this.2.1⟩

/-- C8 (amended): a duplicate entry changes nothing; a rejected entry
increments the exclude-skip counter exactly when some exclude term hits the
normalized title+snippet text (`textForWhy`), otherwise the keyword-skip
counter exactly when the include list is non-empty, otherwise neither.  The
matcher's haystack also contains categories and link, so a rejection caused
by an exclude hit there is counted as a keyword skip, not an exclude skip. -/
theorem claim8_skip_counters (ok : Entry → Bool) (kw ex : List String)
    (acc : RunAcc) (e : Entry) :
    (isDuplicate e acc.st = true → stepEntry ok kw ex acc e = acc) ∧
      (matchesKeywords kw ex e = false →
        isDuplicate e acc.st = false →
        ((ex.any (fun k => strIncludes (textForWhy e) k) = true →
            stepEntry ok kw ex acc e =
              { acc with skippedByExclude := acc.skippedByExclude + 1 }) ∧
          (ex.any (fun k => strIncludes (textForWhy e) k) = false → kw ≠ [] →
            stepEntry ok kw ex acc e =
              { acc with skippedByKeywords := acc.skippedByKeywords + 1 }) ∧
          (ex.any (fun k => strIncludes (textForWhy e) k) = false → kw = [] →
            stepEntry ok kw ex acc e = acc))) := by
  constructor
  · intro h
    unfold stepEntry
    simp [h]
  · intro hm hd
    refine ⟨?_, ?_, ?_⟩
    · intro hx
      have hne : ex.isEmpty = false := by
        cases ex with
        | nil => simp at hx
        | cons a t => rfl
      unfold stepEntry
      simp [hd, hm, hne, hx]
    · intro hx hkw
      have hkw2 : kw.isEmpty = false := by
        cases kw with
        | nil => exact absurd rfl hkw
        | cons a t => rfl
      unfold stepEntry
      simp [hd, hm, hx, hkw2]
    · intro hx hkw
      subst hkw
      unfold stepEntry
      simp [hd, hm, hx]

/-- C8 counterexample: the entry matches the include term "storm" and is
rejected solely because the exclude term "sport" hits its link; the claim
says the exclude-skip counter moves by 1 and the keyword-skip counter does
not, but the code (which re-checks only title+snippet) increments the
keyword-skip counter instead. -/
theorem claim8_counterexample :
    matchesKeywords ["storm"] ["sport"]
        { title := some "Big storm coming", link := some "http://sport.com/x" } = false ∧
      strIncludes (haystack { title := some "Big storm coming", link := some "http://sport.com/x" })
        "sport" = true ∧
      strIncludes (haystack { title := some "Big storm coming", link := some "http://sport.com/x" })
        "storm" = true ∧
      isDuplicate { title := some "Big storm coming", link := some "http://sport.com/x" }
        ⟨[], []⟩ = false ∧
      (stepEntry (fun _ => true) ["storm"] ["sport"] ⟨⟨[], []⟩, 0, 0, 0⟩
          { title := some "Big storm coming", link := some "http://sport.com/x" }).skippedByExclude
        = 0 ∧
      (stepEntry (fun _ => true) ["storm"] ["sport"] ⟨⟨[], []⟩, 0, 0, 0⟩
          { title := some "Big storm coming", link := some "http://sport.com/x" }).skippedByKeywords
        = 1 := by
  decide

/-- C8 witness: an exclude hit inside the title is counted on the
exclude-skip counter, as the amended claim states. -/
theorem claim8_witness :
    stepEntry (fun _ => true) ["storm"] ["sport"] ⟨⟨[], []⟩, 2, 5, 7⟩
        { title := some "Local sport news" } =
      ⟨⟨[], []⟩, 2, 6, 7⟩ :=
  ((claim8_skip_counters (fun _ => true) ["storm"] ["sport"] ⟨⟨[], []⟩, 2, 5, 7⟩
      { title := some "Local sport news" }).2 (by decide) (by decide)).1 (by decide)

/-- C1 (amended): an entry is judged a duplicate (and skipped unchanged)
iff its `canonicalId` is in the seen-ids set OR its normalized link is
non-empty and in the seen-links set — a union of these two membership
tests only; the state has no title-signature set. -/
theorem claim1_dedup_two_key_union (e : Entry) (st : SeenState)
    (ok : Entry → Bool) (kw ex : List String) (sent a b : Nat) :
    (isDuplicate e st = true ↔
        (canonicalId e ∈ st.seen ∨
          (normalizeUrl (jsOr e.link "") ≠ "" ∧
            normalizeUrl (jsOr e.link "") ∈ st.seenLinks))) ∧
      (isDuplicate e st = true →
        stepEntry ok kw ex ⟨st, sent, a, b⟩ e = ⟨st, sent, a, b⟩) := by
  constructor
  · unfold isDuplicate
    simp only [Bool.or_eq_true, Bool.and_eq_true, List.elem_iff, bne_iff_ne]
  · intro h
    unfold stepEntry
    simp [h]

/-- C1 witness: a state already holding the entry's content id suppresses
delivery and leaves everything unchanged. -/
theorem claim1_witness :
    stepEntry (fun _ => true) [] [] ⟨⟨[canonicalId { id := some "a" }], []⟩, 3, 1, 4⟩
        { id := some "a" } =
      ⟨⟨[canonicalId { id := some "a" }], []⟩, 3, 1, 4⟩ :=
  (claim1_dedup_two_key_union { id := some "a" } ⟨[canonicalId { id := some "a" }], []⟩
      (fun _ => true) [] [] 3 1 4).2 (by decide)

/-- C1 counterexample: a persisted blob whose `seen_titles` holds exactly
the entry's (non-empty) title signature; the claim says this third
membership test suppresses delivery, but the loaded state ignores
`seen_titles`, the entry is not judged a duplicate, and it is delivered. -/
theorem claim1_counterexample :
    titleSignature "Big Storm Hits City" ≠ "" ∧
      titleSignature "Big Storm Hits City" ∈
        (StateBlob.mk [] [] [titleSignature "Big Storm Hits City"]).seen_titles ∧
      isDuplicate
        { id := some "fresh-id", link := some "http://a.com/b",
          title := some "Big Storm Hits City" }
        (loadStateFromBlob (StateBlob.mk [] [] [titleSignature "Big Storm Hits City"])) = false ∧
      (stepEntry (fun _ => true) [] []
          ⟨loadStateFromBlob (StateBlob.mk [] [] [titleSignature "Big Storm Hits City"]), 0, 0, 0⟩
          { id := some "fresh-id", link := some "http://a.com/b",
            title := some "Big Storm Hits City" }).sent = 1 := by
  refine ⟨by decide, List.mem_singleton.mpr rfl, by decide, by decide⟩

/-- C9 (amended): `contentId` is the SHA-256 hex digest of the entry's `id`
when that is truthy (present and non-empty), else its `guid` when truthy,
else `link|title|date` (components empty when absent, date preferring
`isoDate` over `pubDate`); entries with the same identifying fields get the
same id. -/
theorem claim9_canonical_id (e : Entry) :
    (∀ s : String, e.id = some s → s ≠ "" → canonicalId e = sha256 s) ∧
      ((e.id = none ∨ e.id = some "") →
        ∀ s : String, e.guid = some s → s ≠ "" → canonicalId e = sha256 s) ∧
      ((e.id = none ∨ e.id = some "") → (e.guid = none ∨ e.guid = some "") →
        canonicalId e =
          sha256 (jsOr e.link "" ++ "|" ++ jsOr e.title "" ++ "|" ++
            jsOr e.isoDate (jsOr e.pubDate ""))) ∧
      (∀ f : Entry, e.id = f.id → e.guid = f.guid → e.link = f.link → e.title = f.title →
        e.isoDate = f.isoDate → e.pubDate = f.pubDate → canonicalId e = canonicalId f) := by
  refine ⟨?_, ?_, ?_, ?_⟩
  · intro s hs hne
    unfold canonicalId jsOr
    rw [hs]
    simp [hne]
  · intro hid s hs hne
    unfold canonicalId jsOr
    rcases hid with h | h <;> rw [h, hs] <;> simp [hne]
  · intro hid hguid
    unfold canonicalId jsOr
    rcases hid with h | h <;> rcases hguid with h2 | h2 <;> rw [h, h2] <;> simp
  · intro f h1 h2 h3 h4 h5 h6
    unfold canonicalId
    rw [h1, h2, h3, h4, h5, h6]

/-- C9 witness: a truthy `id` is hashed directly. -/
theorem claim9_witness :
    canonicalId { id := some "abc" } = sha256 "abc" :=
  (claim9_canonical_id { id := some "abc" }).1 "abc" rfl (by decide)

/-- `stateLE` is reflexive. -/
theorem stateLE_refl (s : SeenState) : stateLE s s :=
  ⟨fun _ h => h, fun _ h => h⟩

/-- `stateLE` is transitive. -/
theorem stateLE_trans {s t u : SeenState} (h1 : stateLE s t) (h2 : stateLE t u) :
    stateLE s u :=
  ⟨fun x hx => h2.1 x (h1.1 x hx), fun x hx => h2.2 x (h1.2 x hx)⟩

/-- One step only ever grows the seen-state. -/
theorem stepEntry_mono (ok : Entry → Bool) (kw ex : List String) (acc : RunAcc) (e : Entry) :
    stateLE acc.st (stepEntry ok kw ex acc e).st := by
  unfold stepEntry
  split
  · exact stateLE_refl _
  · split
    · split
      · exact stateLE_refl _
      · split
        · exact stateLE_refl _
        · exact stateLE_refl _
    · split
      · dsimp only
        constructor
        · intro x hx
          exact List.mem_cons_of_mem _ hx
        · intro x hx
          split
          · exact List.mem_cons_of_mem _ hx
          · exact hx
      · exact stateLE_refl _

/-- A fold of steps only ever grows the seen-state. -/
theorem foldl_step_mono (ok : Entry → Bool) (kw ex : List String) :
    ∀ (l : List Entry) (acc : RunAcc),
      stateLE acc.st ((l.foldl (stepEntry ok kw ex) acc).st) := by
  intro l
  induction l with
  | nil => intro acc; exact stateLE_refl _
  | cons e t ih =>
    intro acc
    exact stateLE_trans (stepEntry_mono ok kw ex acc e) (ih (stepEntry ok kw ex acc e))

/-- Duplicate detection is monotone in the state. -/
theorem isDuplicate_mono (e : Entry) {s t : SeenState} (h : stateLE s t)
    (hd : isDuplicate e s = true) : isDuplicate e t = true := by
  unfold isDuplicate at hd ⊢
  simp only [Bool.or_eq_true, Bool.and_eq_true, List.elem_iff] at hd ⊢
  rcases hd with hd | ⟨h1, h2⟩
  · exact Or.inl (h.1 _ hd)
  · exact Or.inr ⟨h1, h.2 _ h2⟩

/-- If an entry was already processed into a state below `acc₁.st`,
reprocessing it from `acc₁` changes neither state nor sent counter. -/
theorem stepEntry_second (ok : Entry → Bool) (kw ex : List String)
    (acc acc₁ : RunAcc) (e : Entry)
    (h : stateLE (stepEntry ok kw ex acc e).st acc₁.st) :
    (stepEntry ok kw ex acc₁ e).st = acc₁.st ∧
      (stepEntry ok kw ex acc₁ e).sent = acc₁.sent := by
  by_cases hm : matchesKeywords kw ex e = true
  · by_cases hok : ok e = true
    · by_cases hd : isDuplicate e acc.st = true
      · have hst : (stepEntry ok kw ex acc e).st = acc.st := by
          unfold stepEntry
          simp [hd]
        rw [hst] at h
        exact stepEntry_not_delivered ok kw ex acc₁ e
          (Or.inr (Or.inr (isDuplicate_mono e h hd)))
      · have hid : canonicalId e ∈ (stepEntry ok kw ex acc e).st.seen := by
          simp [stepEntry, eqFalse hd, hm, hok]
        have hmem : canonicalId e ∈ acc₁.st.seen := h.1 _ hid
        have hdup1 : isDuplicate e acc₁.st = true := by
          unfold isDuplicate
          simp only [Bool.or_eq_true, List.elem_iff]
          exact Or.inl hmem
        exact stepEntry_not_delivered ok kw ex acc₁ e (Or.inr (Or.inr hdup1))
    · exact stepEntry_not_delivered ok kw ex acc₁ e (Or.inr (Or.inl (eqFalse hok)))
  · exact stepEntry_not_delivered ok kw ex acc₁ e (Or.inl (eqFalse hm))

/-- Second pass over a list of entries from any state at least as large as
the first pass's result: nothing is sent and the state does not move. -/
theorem foldl_step_second (ok : Entry → Bool) (kw ex : List String) :
    ∀ (l : List Entry) (acc acc₁ : RunAcc),
      stateLE ((l.foldl (stepEntry ok kw ex) acc).st) acc₁.st →
      (l.foldl (stepEntry ok kw ex) acc₁).st = acc₁.st ∧
        (l.foldl (stepEntry ok kw ex) acc₁).sent = acc₁.sent := by
  intro l
  induction l with
  | nil =>
    intro acc acc₁ _
    exact ⟨rfl, rfl⟩
  | cons e t ih =>
    intro acc acc₁ h
    simp only [List.foldl_cons] at h ⊢
    have h1 : stateLE (stepEntry ok kw ex acc e).st acc₁.st :=
      stateLE_trans (foldl_step_mono ok kw ex t (stepEntry ok kw ex acc e)) h
    have h2 := stepEntry_second ok kw ex acc acc₁ e h1
    have h3 : stateLE ((t.foldl (stepEntry ok kw ex) (stepEntry ok kw ex acc e)).st)
        (stepEntry ok kw ex acc₁ e).st := by
      rw [h2.1]
      exact h
    have h4 := ih (stepEntry ok kw ex acc e) (stepEntry ok kw ex acc₁ e) h3
    exact ⟨h4.1.trans h2.1, h4.2.trans h2.2⟩

/-- A run is the entry-wise fold over the flattened, per-feed prepared
(capped and reversed) items. -/
theorem runFeeds_eq_foldl (ok : Entry → Bool) (kw ex : List String) (n : Nat)
    (st : SeenState) (feeds : List (List Entry)) :
    runFeeds ok kw ex n st feeds =
      (feeds.flatMap fun items => (items.take n).reverse).foldl
        (stepEntry ok kw ex) ⟨st, 0, 0, 0⟩ := by
  unfold runFeeds
  generalize (⟨st, 0, 0, 0⟩ : RunAcc) = acc
  induction feeds generalizing acc with
  | nil => rfl
  | cons f fs ih =>
    simp only [List.foldl_cons, List.flatMap_cons, List.foldl_append]
    exact ih _

/-- C2: Re-running the whole pipeline on the state produced by a first run,
with the same feed content (and the same per-entry delivery outcomes),
delivers zero messages and leaves the seen-state unchanged. -/
theorem claim2_second_run_sends_nothing (ok : Entry → Bool) (kw ex : List String)
    (n : Nat) (st : SeenState) (feeds : List (List Entry)) :
    (runFeeds ok kw ex n (runFeeds ok kw ex n st feeds).st feeds).st =
        (runFeeds ok kw ex n st feeds).st ∧
      (runFeeds ok kw ex n (runFeeds ok kw ex n st feeds).st feeds).sent = 0 := by
  have key := foldl_step_second ok kw ex
    (feeds.flatMap fun items => (items.take n).reverse) ⟨st, 0, 0, 0⟩
    ⟨(runFeeds ok kw ex n st feeds).st, 0, 0, 0⟩
    (by rw [runFeeds_eq_foldl]; exact stateLE_refl _)
  refine ⟨?_, ?_⟩
  · rw [runFeeds_eq_foldl ok kw ex n (runFeeds ok kw ex n st feeds).st feeds]
    exact key.1
  · rw [runFeeds_eq_foldl ok kw ex n (runFeeds ok kw ex n st feeds).st feeds]
    exact key.2

/-- C9 counterexample: an entry with `id = ""` (present but falsy) and
`guid = "g"`.  The claim's nullish selection hashes `""`; the code's `||`
chain skips the empty `id` and hashes `"g"`, a different digest. -/
theorem claim9_counterexample :
    canonicalId { id := some "", guid := some "g" } ≠
        contentIdNullish { id := some "", guid := some "g" } ∧
      canonicalId { id := some "", guid := some "g" } = sha256 "g" ∧
      contentIdNullish { id := some "", guid := some "g" } = sha256 "" := by
  refine ⟨by decide, rfl, rfl⟩

/-- Unfolding `normalizeUrl` on a successful parse. -/
theorem normalizeUrl_of_parse {s : String} {r : UrlRec} (h : parseUrl s.data = some r) :
    normalizeUrl s = String.mk (normalizeUrlRec r) := by
  unfold normalizeUrl
  rw [h]

/-- The output depends only on scheme, host, path and query. -/
theorem normalizeUrlRec_congr {r₁ r₂ : UrlRec}
    (hs : r₁.scheme = r₂.scheme) (hh : r₁.host = r₂.host)
    (hp : r₁.path = r₂.path) (hq : r₁.query = r₂.query) :
    normalizeUrlRec r₁ = normalizeUrlRec r₂ := by
  unfold normalizeUrlRec
  rw [hs, hh, hp, hq]

/-- C10: the output of `normalizeUrl` is rebuilt from protocol, hostname,
path and remaining query only — userinfo, port and fragment never reach the
output, so two URLs that parse to records agreeing on those four fields
normalize to the identical string. -/
theorem claim10_no_port_no_credentials (s₁ s₂ : String) (r₁ r₂ : UrlRec)
    (h₁ : parseUrl s₁.data = some r₁) (h₂ : parseUrl s₂.data = some r₂)
    (hs : r₁.scheme = r₂.scheme) (hh : r₁.host = r₂.host)
    (hp : r₁.path = r₂.path) (hq : r₁.query = r₂.query) :
    normalizeUrl s₁ = normalizeUrl s₂ ∧
      (∀ (ui pt fr : Option (List Char)),
        normalizeUrlRec { r₁ with userinfo := ui, port := pt, fragment := fr } =
          normalizeUrlRec r₁) := by
  constructor
  · rw [normalizeUrl_of_parse h₁, normalizeUrl_of_parse h₂,
      normalizeUrlRec_congr hs hh hp hq]
  · intro ui pt fr
    rfl

/-- C10 witness: explicit credentials, port and fragment disappear; the two
URLs share one dedup key. -/
theorem claim10_witness :
    normalizeUrl "http://user:pw@X.com:8080/a#frag" = normalizeUrl "http://X.com/a" :=
  (claim10_no_port_no_credentials "http://user:pw@X.com:8080/a#frag" "http://X.com/a"
    ⟨"http".data, true, some "user:pw".data, "X.com".data, some "8080".data,
      "/a".data, none, some "frag".data⟩
    ⟨"http".data, true, none, "X.com".data, none, "/a".data, none, none⟩
    (by decide) (by decide) rfl rfl rfl rfl).1

/-! ### Query segments: split/join and tracking-insertion lemmas -/

/-- Splitting never yields the empty piece list. -/
theorem splitOnChar_ne_nil (t : Char) (l : List Char) : splitOnChar t l ≠ [] := by
  cases l with
  | nil => simp [splitOnChar]
  | cons c cs =>
    unfold splitOnChar
    by_cases h : c = t
    · simp [h]
    · rw [if_neg h]
      cases hs : splitOnChar t cs <;> simp

/-- Pulling a head character out of the first piece. -/
theorem joinWith_cons_cons (sep c : Char) (a : List Char) (rest : List (List Char)) :
    joinWith sep ((c :: a) :: rest) = c :: joinWith sep (a :: rest) := by
  cases rest with
  | nil => rfl
  | cons y r => rfl

/-- Joining undoes splitting. -/
theorem join_splitOnChar (t : Char) (l : List Char) :
    joinWith t (splitOnChar t l) = l := by
  induction l with
  | nil => rfl
  | cons c cs ih =>
    unfold splitOnChar
    by_cases h : c = t
    · rw [if_pos h]
      cases hs : splitOnChar t cs with
      | nil => exact absurd hs (splitOnChar_ne_nil t cs)
      | cons a r =>
        rw [hs] at ih
        show t :: joinWith t (a :: r) = c :: cs
        rw [ih, h]
    · rw [if_neg h]
      cases hs : splitOnChar t cs with
      | nil => exact absurd hs (splitOnChar_ne_nil t cs)
      | cons a r =>
        rw [hs] at ih
        show joinWith t ((c :: a) :: r) = c :: cs
        rw [joinWith_cons_cons, ih]

/-- The parameter pairs of a list of query segments. -/
def segsPairs (segs : List (List Char)) : List (List Char × List Char) :=
  (segs.filter (fun p => !p.isEmpty)).map parsePiece

/-- `parseQuery` through `segsPairs`. -/
theorem parseQuery_eq_segsPairs (q : List Char) :
    parseQuery q = segsPairs (splitOnChar '&' q) := rfl

/-- Unfolding `segsPairs` on a cons. -/
theorem segsPairs_cons (p : List Char) (a : List (List Char)) :
    segsPairs (p :: a) =
      if p.isEmpty then segsPairs a else parsePiece p :: segsPairs a := by
  unfold segsPairs
  rw [List.filter_cons]
  by_cases hp : p.isEmpty
  · simp [hp]
  · simp [hp]

/-- A non-empty segment is not dropped. -/
theorem isEmpty_false_of_ne_nil {p : List Char} (hne : p ≠ []) : p.isEmpty = false := by
  cases p with
  | nil => exact absurd rfl hne
  | cons x xs => rfl

/-- Inserting tracking segments does not change the kept (non-tracking)
parameter pairs. -/
theorem trackInsSeg_kept {a b : List (List Char)} (h : TrackInsSeg a b) :
    (segsPairs a).filter (fun p => !isTracking p.1) =
      (segsPairs b).filter (fun p => !isTracking p.1) := by
  induction h with
  | nil => rfl
  | @keep p a2 b2 h ih =>
    rw [segsPairs_cons, segsPairs_cons]
    by_cases hp : p.isEmpty
    · rw [if_pos hp, if_pos hp]
      exact ih
    · rw [if_neg hp, if_neg hp, List.filter_cons, List.filter_cons]
      by_cases ht : isTracking (parsePiece p).1
      · simp only [ht, Bool.not_true]
        rw [if_neg Bool.false_ne_true, if_neg Bool.false_ne_true]
        exact ih
      · simp only [eqFalse ht, Bool.not_false]
        rw [if_pos trivial, if_pos trivial, ih]
  | @ins p a2 b2 hne ht h ih =>
    rw [segsPairs_cons, if_neg (by rw [isEmpty_false_of_ne_nil hne]; simp),
      List.filter_cons]
    simp only [ht, Bool.not_true]
    rw [if_neg Bool.false_ne_true]
    exact ih

/-- If the larger segment list has no tracking parameter at all, nothing was
inserted. -/
theorem trackInsSeg_eq_of_no_tracking {a b : List (List Char)} (h : TrackInsSeg a b)
    (hm : (segsPairs a).any (fun p => isTracking p.1) = false) : a = b := by
  induction h with
  | nil => rfl
  | @keep p a2 b2 h ih =>
    have hm2 : (segsPairs a2).any (fun p => isTracking p.1) = false := by
      rw [segsPairs_cons] at hm
      by_cases hp : p.isEmpty
      · rw [if_pos hp] at hm
        exact hm
      · rw [if_neg hp, List.any_cons] at hm
        exact (Bool.or_eq_false_iff.mp hm).2
    rw [ih hm2]
  | @ins p a2 b2 hne ht h ih =>
    rw [segsPairs_cons, if_neg (by rw [isEmpty_false_of_ne_nil hne]; simp),
      List.any_cons, ht] at hm
    exact absurd ((Bool.or_eq_false_iff.mp hm).1) (by simp)

/-- `queryPart` through `hasSearchVal` and `keptVal`. -/
theorem queryPart_eq (q : Option (List Char)) :
    queryPart q = if hasSearchVal q then '?' :: serializeQuery (keptVal q) else [] := rfl

/-- The query component of the output is invariant under inserting or
removing tracking parameters on both sides of a common core, provided
neither query consists solely of empty `&`-segments. -/
theorem queryPart_congr (q₁ q₂ : Option (List Char))
    (hq : ∃ c, TrackInsSeg (splitOnChar '&' (q₁.getD [])) c ∧
      TrackInsSeg (splitOnChar '&' (q₂.getD [])) c)
    (hg₁ : q₁.getD [] ≠ [] → parseQuery (q₁.getD []) ≠ [])
    (hg₂ : q₂.getD [] ≠ [] → parseQuery (q₂.getD []) ≠ []) :
    queryPart q₁ = queryPart q₂ := by
  obtain ⟨c, t1, t2⟩ := hq
  have hkept : keptVal q₁ = keptVal q₂ := by
    unfold keptVal
    rw [parseQuery_eq_segsPairs, parseQuery_eq_segsPairs]
    exact (trackInsSeg_kept t1).trans (trackInsSeg_kept t2).symm
  have hkne : ∀ (q : Option (List Char)),
      ((parseQuery (q.getD [])).any (fun p => isTracking p.1)) = false →
      keptVal q = parseQuery (q.getD []) := by
    intro q hm
    apply List.filter_eq_self.mpr
    intro p hp
    have h2 := List.any_eq_true.not.mp (by rw [hm]; simp)
    push_neg at h2
    have h3 := h2 p hp
    simp [h3]
  have hzpq : (parseQuery ([] : List Char)) = [] := rfl
  have hbool : ∀ (x : List Char) (y : List (List Char × List Char)),
      (x ≠ [] → y ≠ []) → (x = [] → y = []) → (!y.isEmpty) = (!x.isEmpty) := by
    intro x y h1 h2
    cases x with
    | nil =>
      rw [h2 rfl]
      rfl
    | cons b bs =>
      cases y with
      | nil => exact absurd rfl (h1 (by intro hc; cases hc))
      | cons a as => rfl
  have hpairs_nil : ∀ (q : Option (List Char)), q.getD [] = [] → parseQuery (q.getD []) = [] := by
    intro q hz
    rw [hz]
    rfl
  have hsv : hasSearchVal q₁ = hasSearchVal q₂ := by
    unfold hasSearchVal
    by_cases m1 : ((parseQuery (q₁.getD [])).any (fun p => isTracking p.1)) = true
    · by_cases m2 : ((parseQuery (q₂.getD [])).any (fun p => isTracking p.1)) = true
      · rw [m1, m2, if_pos rfl, if_pos rfl, hkept]
      · -- q₂ tracking-free: kept₁ = kept₂ = pairs₂, so compare with raw₂ emptiness
        rw [m1, eqFalse m2, if_pos rfl, if_neg (by simp)]
        rw [hkept, hkne q₂ (eqFalse m2)]
        exact hbool _ _ hg₂ (fun h => by rw [h]; rfl)
    · have ha := trackInsSeg_eq_of_no_tracking t1
        (by rw [← parseQuery_eq_segsPairs]; exact eqFalse m1)
      by_cases m2 : ((parseQuery (q₂.getD [])).any (fun p => isTracking p.1)) = true
      · rw [eqFalse m1, m2, if_neg (by simp), if_pos rfl]
        rw [← hkept, hkne q₁ (eqFalse m1)]
        exact (hbool _ _ hg₁ (fun h => by rw [h]; rfl)).symm
      · have hb := trackInsSeg_eq_of_no_tracking t2
          (by rw [← parseQuery_eq_segsPairs]; exact eqFalse m2)
        have hraw : q₁.getD [] = q₂.getD [] := by
          rw [← join_splitOnChar '&' (q₁.getD []), ← join_splitOnChar '&' (q₂.getD []),
            ha, hb]
        rw [eqFalse m1, eqFalse m2, if_neg (by simp), if_neg (by simp), hraw]
  rw [queryPart_eq, queryPart_eq, hkept, hsv]

/-- Dropping leading slashes ignores a slash prefix. -/
theorem dropWhile_slash_replicate (k : Nat) (x : List Char) :
    List.dropWhile (fun c => c == '/') (List.replicate k '/' ++ x) =
      List.dropWhile (fun c => c == '/') x := by
  induction k with
  | zero => rfl
  | succ k ih =>
    rw [List.replicate_succ, List.cons_append, List.dropWhile_cons,
      if_pos (show ('/' == '/') = true from rfl)]
    exact ih

/-- Trailing slashes do not survive `stripTrailingSlashes`. -/
theorem strip_append_slashes (p : List Char) (k : Nat) :
    stripTrailingSlashes (p ++ List.replicate k '/') = stripTrailingSlashes p := by
  unfold stripTrailingSlashes
  rw [List.reverse_append, List.reverse_replicate, dropWhile_slash_replicate]

/-- `TrackInsSeg` is reflexive (zero insertions). -/
theorem trackInsSeg_refl (a : List (List Char)) : TrackInsSeg a a := by
  induction a with
  | nil => exact TrackInsSeg.nil
  | cons p t ih => exact TrackInsSeg.keep p ih

/-- C4 (amended): two URLs that differ only by fragment, by the presence of
tracking parameters from the deny-list (names compared case-insensitively),
by trailing slashes on the path, or by host letter case, normalize to the
identical output — provided neither query consists solely of empty
`&`-segments (for such degenerate queries the stray `?` survives on the
tracking-free side only). -/
theorem claim4_normalization_invariance (s₁ s₂ : String) (r₁ r₂ : UrlRec)
    (h₁ : parseUrl s₁.data = some r₁) (h₂ : parseUrl s₂.data = some r₂)
    (hs : r₁.scheme = r₂.scheme)
    (hh : r₁.host.map Char.toLower = r₂.host.map Char.toLower)
    (hp : ∃ base m n, r₁.path = base ++ List.replicate m '/' ∧
      r₂.path = base ++ List.replicate n '/')
    (hq : ∃ c, TrackInsSeg (splitOnChar '&' (r₁.query.getD [])) c ∧
      TrackInsSeg (splitOnChar '&' (r₂.query.getD [])) c)
    (hg₁ : r₁.query.getD [] ≠ [] → parseQuery (r₁.query.getD []) ≠ [])
    (hg₂ : r₂.query.getD [] ≠ [] → parseQuery (r₂.query.getD []) ≠ []) :
    normalizeUrl s₁ = normalizeUrl s₂ := by
  rw [normalizeUrl_of_parse h₁, normalizeUrl_of_parse h₂]
  apply congrArg String.mk
  unfold normalizeUrlRec
  obtain ⟨base, m, n, hp1, hp2⟩ := hp
  rw [hs, hh, hp1, hp2, strip_append_slashes, strip_append_slashes,
    queryPart_congr r₁.query r₂.query hq hg₁ hg₂]

/-- C4 witness: fragment, a `utm_source` parameter, a trailing slash and an
uppercase host all wash out. -/
theorem claim4_witness :
    normalizeUrl "http://X.com/a/?utm_source=t&b=2#frag" = normalizeUrl "http://x.com/a?b=2" := by
  apply claim4_normalization_invariance
    "http://X.com/a/?utm_source=t&b=2#frag" "http://x.com/a?b=2"
    ⟨"http".data, true, none, "X.com".data, none, "/a/".data,
      some "utm_source=t&b=2".data, some "frag".data⟩
    ⟨"http".data, true, none, "x.com".data, none, "/a".data, some "b=2".data, none⟩
    (by decide) (by decide) rfl (by decide)
    ⟨"/a".data, 1, 0, by decide, by decide⟩ ?_ (by decide) (by decide)
  refine ⟨splitOnChar '&' "b=2".data, ?_, trackInsSeg_refl _⟩
  show TrackInsSeg (splitOnChar '&' "utm_source=t&b=2".data) (splitOnChar '&' "b=2".data)
  have e1 : splitOnChar '&' "utm_source=t&b=2".data = ["utm_source=t".data, "b=2".data] := by
    decide
  have e2 : splitOnChar '&' "b=2".data = ["b=2".data] := by decide
  rw [e1, e2]
  exact TrackInsSeg.ins _ (by decide) (by decide) (trackInsSeg_refl _)

/-- C4 counterexample: the two URLs differ only by the presence of the
tracking parameter `utm_source` (inserted in front of a query of empty
`&`-segments), yet their normalized outputs differ: deleting the tracking
parameter re-serialises the query and drops the stray `?`, while the
tracking-free side keeps it. -/
theorem claim4_counterexample :
    normalizeUrl "http://x.com/?utm_source=t&&" ≠ normalizeUrl "http://x.com/?&" ∧
      normalizeUrl "http://x.com/?utm_source=t&&" = "http://x.com" ∧
      normalizeUrl "http://x.com/?&" = "http://x.com?" ∧
      TrackInsSeg (splitOnChar '&' "utm_source=t&&".data) (splitOnChar '&' "&".data) := by
  refine ⟨by decide, by decide, by decide, ?_⟩
  have e1 : splitOnChar '&' "utm_source=t&&".data = ["utm_source=t".data, [], []] := by decide
  have e2 : splitOnChar '&' "&".data = [[], []] := by decide
  rw [e1, e2]
  exact TrackInsSeg.ins _ (by decide) (by decide)
    (TrackInsSeg.keep _ (TrackInsSeg.keep _ TrackInsSeg.nil))

/-! ### ASCII lowercase lemmas -/

/-- `Char.ofNat` of a valid code point round-trips through `toNat`. -/
theorem toNat_ofNat_valid (n : Nat) (h : n.isValidChar) : (Char.ofNat n).toNat = n := by
  simp [Char.ofNat, h, Char.toNat, Char.ofNatAux, UInt32.toNat, BitVec.toNat_ofNatLt]

/-- `Char.toLower` either fixes its argument or shifts an ASCII uppercase
letter down by 32. -/
theorem toLower_view (c : Char) :
    (Char.toLower c = c ∧ ¬(65 ≤ c.toNat ∧ c.toNat ≤ 90)) ∨
      ((Char.toLower c).toNat = c.toNat + 32 ∧ 65 ≤ c.toNat ∧ c.toNat ≤ 90) := by
  by_cases h : 65 ≤ c.toNat ∧ c.toNat ≤ 90
  · right
    refine ⟨?_, h⟩
    have hv : (c.toNat + 32).isValidChar := Or.inl (by omega)
    simp only [Char.toLower]
    rw [if_pos ⟨h.1, h.2⟩]
    exact toNat_ofNat_valid _ hv
  · left
    refine ⟨?_, h⟩
    simp only [Char.toLower]
    rw [if_neg h]

/-- Characters with different code points differ. -/
theorem char_ne_of_toNat_ne {c d : Char} (h : c.toNat ≠ d.toNat) : c ≠ d :=
  fun he => h (by rw [he])

/-- `isAlpha` through code points. -/
theorem isAlpha_iff (c : Char) :
    c.isAlpha = true ↔ (65 ≤ c.toNat ∧ c.toNat ≤ 90) ∨ (97 ≤ c.toNat ∧ c.toNat ≤ 122) := by
  unfold Char.isAlpha Char.isUpper Char.isLower
  simp only [Bool.or_eq_true, Bool.and_eq_true, decide_eq_true_iff]
  exact Iff.rfl

/-- `Char.toLower` is idempotent. -/
theorem toLower_toLower (c : Char) : Char.toLower (Char.toLower c) = Char.toLower c := by
  rcases toLower_view c with ⟨h1, _⟩ | ⟨h1, h2, h3⟩
  · rw [h1]
    exact h1
  · rcases toLower_view (Char.toLower c) with ⟨g1, _⟩ | ⟨_, g2, g3⟩
    · exact g1
    · omega

/-- Lowercasing a list twice is lowercasing once. -/
theorem map_toLower_idem (l : List Char) :
    (l.map Char.toLower).map Char.toLower = l.map Char.toLower := by
  rw [List.map_map]
  exact List.map_congr_left (fun a _ => toLower_toLower a)

/-- `toLower` preserves `isAlpha`. -/
theorem toLower_isAlpha {c : Char} (h : c.isAlpha = true) :
    (Char.toLower c).isAlpha = true := by
  rcases toLower_view c with ⟨h1, _⟩ | ⟨h1, h2, h3⟩
  · rw [h1]
    exact h
  · rw [isAlpha_iff]
    right
    omega

/-- `toLower` preserves scheme characters. -/
theorem toLower_schemeChar {c : Char} (h : schemeChar c = true) :
    schemeChar (Char.toLower c) = true := by
  rcases toLower_view c with ⟨h1, _⟩ | ⟨h1, h2, h3⟩
  · rw [h1]
    exact h
  · have ha : (Char.toLower c).isAlpha = true := by
      rw [isAlpha_iff]
      right
      omega
    unfold schemeChar
    rw [ha]
    rfl

/-- A lowercase letter compared with a low code point. -/
theorem toLower_shifted_beq_false {c : Char} (d : Char)
    (hn : 97 ≤ (Char.toLower c).toNat) (hd : d.toNat < 97) :
    (Char.toLower c == d) = false :=
  beq_eq_false_iff_ne.mpr (char_ne_of_toNat_ne (by omega))

/-- `toLower` keeps a character suitable for the host component. -/
theorem toLower_hostChar {c : Char} (h1 : authDelim c = false) (h2 : c ≠ '@') (h3 : c ≠ ':') :
    authDelim (Char.toLower c) = false ∧ Char.toLower c ≠ '@' ∧ Char.toLower c ≠ ':' := by
  rcases toLower_view c with ⟨g1, _⟩ | ⟨g1, g2, g3⟩
  · rw [g1]
    exact ⟨h1, h2, h3⟩
  · have hn : 97 ≤ (Char.toLower c).toNat := by omega
    refine ⟨?_, char_ne_of_toNat_ne (by rw [g1, show ('@' : Char).toNat = 64 from rfl]; omega),
      char_ne_of_toNat_ne (by rw [g1, show (':' : Char).toNat = 58 from rfl]; omega)⟩
    unfold authDelim
    rw [toLower_shifted_beq_false '/' hn (by decide),
      toLower_shifted_beq_false '?' hn (by decide),
      toLower_shifted_beq_false '#' hn (by decide)]
    rfl

/-! ### Splitting and scanning lemmas -/

/-- `takeWhile`/`dropWhile` on a good prefix followed by a stopper. -/
theorem takeWhile_append_frontier (p : Char → Bool) :
    ∀ (xs ys : List Char), (∀ x ∈ xs, p x = true) →
      (ys = [] ∨ ∃ y t, ys = y :: t ∧ p y = false) →
      (xs ++ ys).takeWhile p = xs ∧ (xs ++ ys).dropWhile p = ys := by
  intro xs
  induction xs with
  | nil =>
    intro ys _ hy
    rcases hy with h | ⟨y, t, h, hp⟩
    · subst h
      exact ⟨rfl, rfl⟩
    · subst h
      constructor
      · simp [List.takeWhile_cons, hp]
      · simp [List.dropWhile_cons, hp]
  | cons x xs ih =>
    intro ys hx hy
    have hpx : p x = true := hx x (List.mem_cons_self _ _)
    have ih2 := ih ys (fun z hz => hx z (List.mem_cons_of_mem _ hz)) hy
    constructor
    · rw [List.cons_append, List.takeWhile_cons, if_pos hpx, ih2.1]
    · rw [List.cons_append, List.dropWhile_cons, if_pos hpx, ih2.2]

/-- `splitFirst` misses an absent character. -/
theorem splitFirst_none_of_not_mem {t : Char} : ∀ {l : List Char}, t ∉ l →
    splitFirst t l = none := by
  intro l
  induction l with
  | nil => intro _; rfl
  | cons c cs ih =>
    intro h
    unfold splitFirst
    rw [if_neg (by intro hc; subst hc; exact h (List.mem_cons_self _ _)),
      ih (fun hm => h (List.mem_cons_of_mem _ hm))]

/-- `splitFirst` finding nothing means the character is absent. -/
theorem not_mem_of_splitFirst_none {t : Char} : ∀ {l : List Char},
    splitFirst t l = none → t ∉ l := by
  intro l
  induction l with
  | nil => intro _ hm; cases hm
  | cons c cs ih =>
    intro h hm
    unfold splitFirst at h
    by_cases hc : c = t
    · rw [if_pos hc] at h
      cases h
    · rw [if_neg hc] at h
      rcases List.mem_cons.mp hm with rfl | hm2
      · exact hc rfl
      · rcases hs : splitFirst t cs with _ | p
        · exact ih hs hm2
        · rw [hs] at h
          cases h

/-- Decomposition given by a successful `splitFirst`. -/
theorem splitFirst_eq_some {t : Char} : ∀ {l a b : List Char},
    splitFirst t l = some (a, b) → l = a ++ t :: b ∧ t ∉ a := by
  intro l
  induction l with
  | nil => intro a b h; cases h
  | cons c cs ih =>
    intro a b h
    unfold splitFirst at h
    by_cases hc : c = t
    · rw [if_pos hc] at h
      injection h with h2
      rw [show a = [] from (congrArg Prod.fst h2).symm,
        show b = cs from (congrArg Prod.snd h2).symm]
      exact ⟨by rw [hc]; rfl, by intro hm; cases hm⟩
    · rw [if_neg hc] at h
      rcases hs : splitFirst t cs with _ | ⟨a2, b2⟩
      · rw [hs] at h
        cases h
      · rw [hs] at h
        injection h with h2
        obtain ⟨hcs, hna⟩ := ih hs
        rw [show a = c :: a2 from (congrArg Prod.fst h2).symm,
          show b = b2 from (congrArg Prod.snd h2).symm]
        constructor
        · rw [List.cons_append, hcs]
        · intro hm
          rcases List.mem_cons.mp hm with h3 | h3
          · exact hc h3.symm
          · exact hna h3

/-- `splitLast` misses an absent character. -/
theorem splitLast_none_of_not_mem {t : Char} {l : List Char} (h : t ∉ l) :
    splitLast t l = none := by
  unfold splitLast
  rw [splitFirst_none_of_not_mem (by simpa using h)]

/-- The host part of a successful `splitLast` avoids the separator and draws
its characters from the input. -/
theorem splitLast_eq_some {t : Char} {l u hp : List Char}
    (h : splitLast t l = some (u, hp)) : t ∉ hp ∧ ∀ c ∈ hp, c ∈ l := by
  unfold splitLast at h
  rcases hs : splitFirst t l.reverse with _ | ⟨a, b⟩
  · rw [hs] at h
    cases h
  · rw [hs] at h
    injection h with h2
    obtain ⟨hdec, hna⟩ := splitFirst_eq_some hs
    rw [show hp = a.reverse from (congrArg Prod.snd h2).symm]
    constructor
    · intro hm
      exact hna (by simpa using hm)
    · intro c hc
      have h3 : c ∈ a := by simpa using hc
      have h4 : c ∈ l.reverse := by
        rw [hdec]
        exact List.mem_append.mpr (Or.inl h3)
      simpa using h4

/-- Pieces of `splitOnChar` avoid the separator and draw their characters
from the input. -/
theorem splitOnChar_piece {t : Char} : ∀ {l piece : List Char},
    piece ∈ splitOnChar t l → ∀ c ∈ piece, c ∈ l ∧ c ≠ t := by
  intro l
  induction l with
  | nil =>
    intro piece h c hc
    simp [splitOnChar] at h
    subst h
    cases hc
  | cons d ds ih =>
    intro piece h c hc
    unfold splitOnChar at h
    by_cases hd : d = t
    · rw [if_pos hd] at h
      rcases List.mem_cons.mp h with is_empty | h2
      · subst is_empty
        cases hc
      · have := ih h2 c hc
        exact ⟨List.mem_cons_of_mem _ this.1, this.2⟩
    · rw [if_neg hd] at h
      rcases hsp : splitOnChar t ds with _ | ⟨a, rest⟩
      · exact absurd hsp (splitOnChar_ne_nil t ds)
      · rw [hsp] at h
        rcases List.mem_cons.mp h with h3 | h2
        · subst h3
          rcases List.mem_cons.mp hc with h4 | hc2
          · subst h4
            exact ⟨List.mem_cons_self _ _, hd⟩
          · have ha : a ∈ splitOnChar t ds := by
              rw [hsp]
              exact List.mem_cons_self _ _
            have := ih ha c hc2
            exact ⟨List.mem_cons_of_mem _ this.1, this.2⟩
        · have h3 : piece ∈ splitOnChar t ds := by
            rw [hsp]
            exact List.mem_cons_of_mem _ h2
          have := ih h3 c hc
          exact ⟨List.mem_cons_of_mem _ this.1, this.2⟩

/-- A separator-free list splits into one piece. -/
theorem splitOnChar_of_not_mem {t : Char} : ∀ {l : List Char}, t ∉ l →
    splitOnChar t l = [l] := by
  intro l
  induction l with
  | nil => intro _; rfl
  | cons c cs ih =>
    intro h
    unfold splitOnChar
    rw [if_neg (by intro hc; subst hc; exact h (List.mem_cons_self _ _)),
      ih (fun hm => h (List.mem_cons_of_mem _ hm))]

/-- The defining equation of `splitOnChar` on a cons. -/
theorem splitOnChar_cons_eq (t c : Char) (cs : List Char) :
    splitOnChar t (c :: cs) =
      if c = t then [] :: splitOnChar t cs
      else
        match splitOnChar t cs with
        | [] => [[c]]
        | a :: rest => (c :: a) :: rest := rfl

/-- Splitting after a separator-free prefix peels off that prefix. -/
theorem splitOnChar_append_sep {t : Char} : ∀ {a : List Char} (rest : List Char), t ∉ a →
    splitOnChar t (a ++ t :: rest) = a :: splitOnChar t rest := by
  intro a
  induction a with
  | nil =>
    intro rest _
    show splitOnChar t (t :: rest) = [] :: splitOnChar t rest
    rw [splitOnChar_cons_eq, if_pos rfl]
  | cons c cs ih =>
    intro rest h
    have hc : ¬c = t := by
      intro hc
      subst hc
      exact h (List.mem_cons_self _ _)
    show splitOnChar t (c :: (cs ++ t :: rest)) = (c :: cs) :: splitOnChar t rest
    rw [splitOnChar_cons_eq, if_neg hc, ih rest (fun hm => h (List.mem_cons_of_mem _ hm))]

/-- `dropWhile` is idempotent. -/
theorem dropWhile_dropWhile (p : Char → Bool) (l : List Char) :
    (l.dropWhile p).dropWhile p = l.dropWhile p := by
  induction l with
  | nil => rfl
  | cons c cs ih =>
    rw [List.dropWhile_cons]
    by_cases h : p c = true
    · rw [if_pos h]
      exact ih
    · rw [if_neg h, List.dropWhile_cons, if_neg h]

/-- `stripTrailingSlashes` is idempotent. -/
theorem strip_idem (p : List Char) :
    stripTrailingSlashes (stripTrailingSlashes p) = stripTrailingSlashes p := by
  unfold stripTrailingSlashes
  rw [List.reverse_reverse, dropWhile_dropWhile]

/-- A list is its stripped form plus trailing slashes. -/
theorem strip_decomp (p : List Char) :
    p = stripTrailingSlashes p ++ (p.reverse.takeWhile (fun c => c == '/')).reverse := by
  unfold stripTrailingSlashes
  conv_lhs => rw [← List.reverse_reverse p,
    ← List.takeWhile_append_dropWhile (fun c => c == '/') p.reverse]
  rw [List.reverse_append]

/-- Characters of the stripped path come from the path. -/
theorem mem_strip {c : Char} {p : List Char} (h : c ∈ stripTrailingSlashes p) : c ∈ p := by
  unfold stripTrailingSlashes at h
  rw [List.mem_reverse] at h
  have h2 : c ∈ p.reverse := (List.dropWhile_sublist _).subset h
  simpa using h2

/-- Stripping keeps the leading slash (or empties the path). -/
theorem strip_head {p tl : List Char} (h : p = '/' :: tl) :
    stripTrailingSlashes p = [] ∨ ∃ t2, stripTrailingSlashes p = '/' :: t2 := by
  cases hs : stripTrailingSlashes p with
  | nil => exact Or.inl rfl
  | cons x xs =>
    right
    have hd := strip_decomp p
    rw [hs, h, List.cons_append] at hd
    injection hd with h1 _
    exact ⟨xs, by rw [← h1]⟩

/-! ### Query serialisation round-trip -/

/-- Well-formedness of parsed parameter pairs: names contain no `&` or `=`,
values no `&`. -/
def PairWF (p : List Char × List Char) : Prop :=
  '&' ∉ p.1 ∧ '=' ∉ p.1 ∧ '&' ∉ p.2

/-- Every pair produced by `parseQuery` is well-formed. -/
theorem parseQuery_wf {q : List Char} : ∀ p ∈ parseQuery q, PairWF p := by
  intro p hp
  unfold parseQuery at hp
  rcases List.mem_map.mp hp with ⟨piece, hpiece, hpp⟩
  have hmem := (List.mem_filter.mp hpiece).1
  have hsub := splitOnChar_piece hmem
  subst hpp
  unfold parsePiece
  rcases hsf : splitFirst '=' piece with _ | ⟨n, v⟩
  · have hne := not_mem_of_splitFirst_none hsf
    exact ⟨fun hm => (hsub '&' hm).2 rfl, hne, fun hm => by cases hm⟩
  · obtain ⟨hdec, hna⟩ := splitFirst_eq_some hsf
    refine ⟨?_, hna, ?_⟩
    · intro hm
      have : ('&' : Char) ∈ piece := by
        rw [hdec]
        exact List.mem_append.mpr (Or.inl hm)
      exact (hsub '&' this).2 rfl
    · intro hm
      have : ('&' : Char) ∈ piece := by
        rw [hdec]
        exact List.mem_append.mpr (Or.inr (List.mem_cons_of_mem _ hm))
      exact (hsub '&' this).2 rfl

/-- Every character of a parsed pair comes from the query. -/
theorem parseQuery_chars {q : List Char} : ∀ p ∈ parseQuery q,
    (∀ c ∈ p.1, c ∈ q) ∧ ∀ c ∈ p.2, c ∈ q := by
  intro p hp
  unfold parseQuery at hp
  rcases List.mem_map.mp hp with ⟨piece, hpiece, hpp⟩
  have hmem := (List.mem_filter.mp hpiece).1
  have hsub := splitOnChar_piece hmem
  subst hpp
  unfold parsePiece
  rcases hsf : splitFirst '=' piece with _ | ⟨n, v⟩
  · exact ⟨fun c hc => (hsub c hc).1, fun c hc => by cases hc⟩
  · obtain ⟨hdec, _⟩ := splitFirst_eq_some hsf
    constructor
    · intro c hc
      exact (hsub c (by rw [hdec]; exact List.mem_append.mpr (Or.inl hc))).1
    · intro c hc
      exact (hsub c (by
        rw [hdec]
        exact List.mem_append.mpr (Or.inr (List.mem_cons_of_mem _ hc)))).1

/-- A serialised pair is never empty. -/
theorem serializePair_ne_nil (p : List Char × List Char) : serializePair p ≠ [] := by
  unfold serializePair
  cases h : p.1 with
  | nil => simp
  | cons x xs => simp

/-- A serialised non-empty pair list is non-empty. -/
theorem serializeQuery_ne_nil {ps : List (List Char × List Char)} (h : ps ≠ []) :
    serializeQuery ps ≠ [] := by
  match ps with
  | [] => exact absurd rfl h
  | [p] => exact serializePair_ne_nil p
  | p :: q :: ps =>
    show serializePair p ++ '&' :: serializeQuery (q :: ps) ≠ []
    cases hs : serializePair p with
    | nil => exact absurd hs (serializePair_ne_nil p)
    | cons x xs => simp

/-- The separator is absent from a well-formed serialised pair. -/
theorem not_mem_serializePair {p : List Char × List Char} (h : PairWF p) :
    ('&' : Char) ∉ serializePair p := by
  unfold serializePair
  intro hm
  rcases List.mem_append.mp hm with h1 | h1
  · exact h.1 h1
  · rcases List.mem_cons.mp h1 with h2 | h2
    · cases h2
    · exact h.2.2 h2

/-- The defining equation of `splitFirst` on a cons. -/
theorem splitFirst_cons_eq (t c : Char) (cs : List Char) :
    splitFirst t (c :: cs) =
      if c = t then some ([], cs)
      else
        match splitFirst t cs with
        | some (a, b) => some (c :: a, b)
        | none => none := rfl

/-- `splitFirst` right after a separator-free prefix. -/
theorem splitFirst_eq_some_of_append {t : Char} : ∀ {a : List Char} (b : List Char), t ∉ a →
    splitFirst t (a ++ t :: b) = some (a, b) := by
  intro a
  induction a with
  | nil =>
    intro b _
    show splitFirst t (t :: b) = some ([], b)
    rw [splitFirst_cons_eq, if_pos rfl]
  | cons c cs ih =>
    intro b h
    have hc : ¬c = t := fun hc => h (by rw [hc]; exact List.mem_cons_self _ _)
    show splitFirst t (c :: (cs ++ t :: b)) = some (c :: cs, b)
    rw [splitFirst_cons_eq, if_neg hc, ih b (fun hm => h (List.mem_cons_of_mem _ hm))]

/-- Parsing a well-formed serialised pair list recovers it. -/
theorem parseQuery_serializeQuery : ∀ (ps : List (List Char × List Char)),
    (∀ p ∈ ps, PairWF p) → parseQuery (serializeQuery ps) = ps := by
  intro ps
  match ps with
  | [] => intro _; rfl
  | [p] =>
    intro hwf
    have hw := hwf p (List.mem_cons_self _ _)
    show parseQuery (serializePair p) = [p]
    unfold parseQuery
    rw [splitOnChar_of_not_mem (not_mem_serializePair hw)]
    rw [List.filter_cons, if_pos (by
      simpa using isEmpty_false_of_ne_nil (serializePair_ne_nil p))]
    show [parsePiece (serializePair p)] = [p]
    unfold parsePiece serializePair
    rw [splitFirst_eq_some_of_append _ hw.2.1]
  | p :: q :: ps =>
    intro hwf
    have hw := hwf p (List.mem_cons_self _ _)
    have ih := parseQuery_serializeQuery (q :: ps)
      (fun x hx => hwf x (List.mem_cons_of_mem _ hx))
    show parseQuery (serializePair p ++ '&' :: serializeQuery (q :: ps)) = p :: q :: ps
    unfold parseQuery
    rw [splitOnChar_append_sep _ (not_mem_serializePair hw)]
    rw [List.filter_cons, if_pos (by
      simpa using isEmpty_false_of_ne_nil (serializePair_ne_nil p))]
    rw [List.map_cons]
    have hpp : parsePiece (serializePair p) = p := by
      unfold parsePiece serializePair
      rw [splitFirst_eq_some_of_append _ hw.2.1]
    rw [hpp]
    unfold parseQuery at ih
    rw [ih]

/-- Characters of a serialised query are separators, equals signs, or pair
characters. -/
theorem mem_serializeQuery : ∀ {ps : List (List Char × List Char)} {c : Char},
    c ∈ serializeQuery ps → c = '&' ∨ c = '=' ∨ ∃ p ∈ ps, c ∈ p.1 ∨ c ∈ p.2 := by
  intro ps
  match ps with
  | [] => intro c hc; cases hc
  | [p] =>
    intro c hc
    rcases List.mem_append.mp hc with h1 | h1
    · exact Or.inr (Or.inr ⟨p, List.mem_cons_self _ _, Or.inl h1⟩)
    · rcases List.mem_cons.mp h1 with h2 | h2
      · exact Or.inr (Or.inl h2)
      · exact Or.inr (Or.inr ⟨p, List.mem_cons_self _ _, Or.inr h2⟩)
  | p :: q :: ps =>
    intro c hc
    rcases List.mem_append.mp hc with h1 | h1
    · rcases List.mem_append.mp h1 with h2 | h2
      · exact Or.inr (Or.inr ⟨p, List.mem_cons_self _ _, Or.inl h2⟩)
      · rcases List.mem_cons.mp h2 with h3 | h3
        · exact Or.inr (Or.inl h3)
        · exact Or.inr (Or.inr ⟨p, List.mem_cons_self _ _, Or.inr h3⟩)
    · rcases List.mem_cons.mp h1 with h2 | h2
      · exact Or.inl h2
      · rcases mem_serializeQuery h2 with h3 | h3 | ⟨x, hx, h4⟩
        · exact Or.inl h3
        · exact Or.inr (Or.inl h3)
        · exact Or.inr (Or.inr ⟨x, List.mem_cons_of_mem _ hx, h4⟩)

/-! ### Parser inversion -/

/-- The path of `parseTail` is the initial `pathStop` run. -/
theorem parseTail_path (r : List Char) : (parseTail r).1 = r.takeWhile pathStop := by
  unfold parseTail
  split
  · split
    · rfl
    · rfl
  · rfl
  · rfl

/-- The query component of `parseTail` never contains `#`. -/
theorem parseTail_query {r : List Char} {qs : List Char}
    (h : (parseTail r).2.1 = some qs) : ∀ c ∈ qs, fragStop c = true := by
  unfold parseTail at h
  split at h
  · split at h
    · injection h with h2
      subst h2
      exact fun c hc => List.mem_takeWhile_imp hc
    · injection h with h2
      subst h2
      exact fun c hc => List.mem_takeWhile_imp hc
  · cases h
  · cases h

/-- `splitLast` finding nothing means the character is absent. -/
theorem not_mem_of_splitLast_none {t : Char} {l : List Char}
    (h : splitLast t l = none) : t ∉ l := by
  unfold splitLast at h
  rcases hs : splitFirst t l.reverse with _ | ⟨a, b⟩
  · intro hm
    exact not_mem_of_splitFirst_none hs (by simpa using hm)
  · rw [hs] at h
    cases h

/-- The host returned by `parseAuthority` draws its characters from the
authority and contains neither `@` nor `:`. -/
theorem parseAuthority_inv {auth : List Char} {ui : Option (List Char)}
    {hst : List Char} {pt : Option (List Char)}
    (h : parseAuthority auth = some (ui, hst, pt)) :
    ∀ c ∈ hst, c ∈ auth ∧ c ≠ '@' ∧ c ≠ ':' := by
  unfold parseAuthority at h
  split at h
  · next u hp heq =>
    obtain ⟨hat, hsub⟩ := splitLast_eq_some heq
    split at h
    · next h2 pt2 heq2 =>
      obtain ⟨hdec, hcolon⟩ := splitFirst_eq_some heq2
      split at h
      · injection h with h3
        have hh : hst = h2 := by
          have := congrArg (fun x => x.2.1) h3
          exact this.symm
        subst hh
        intro c hc
        have hchp : c ∈ hp := by
          rw [hdec]
          exact List.mem_append.mpr (Or.inl hc)
        exact ⟨hsub c hchp, fun he => hat (he ▸ hchp), fun he => hcolon (he ▸ hc)⟩
      · cases h
    · next heq2 =>
      injection h with h3
      have hh : hst = hp := by
        have := congrArg (fun x => x.2.1) h3
        exact this.symm
      subst hh
      intro c hc
      exact ⟨hsub c hc, fun he => hat (he ▸ hc),
        fun he => not_mem_of_splitFirst_none heq2 (he ▸ hc)⟩
  · next heq =>
    have hat : ('@' : Char) ∉ auth := not_mem_of_splitLast_none heq
    split at h
    · next h2 pt2 heq2 =>
      obtain ⟨hdec, hcolon⟩ := splitFirst_eq_some heq2
      split at h
      · injection h with h3
        have hh : hst = h2 := by
          have := congrArg (fun x => x.2.1) h3
          exact this.symm
        subst hh
        intro c hc
        have hca : c ∈ auth := by
          rw [hdec]
          exact List.mem_append.mpr (Or.inl hc)
        exact ⟨hca, fun he => hat (he ▸ hca), fun he => hcolon (he ▸ hc)⟩
      · cases h
    · next heq2 =>
      injection h with h3
      have hh : hst = auth := by
        have := congrArg (fun x => x.2.1) h3
        exact this.symm
      subst hh
      intro c hc
      exact ⟨hc, fun he => hat (he ▸ hc),
        fun he => not_mem_of_splitFirst_none heq2 (he ▸ hc)⟩

/-- The only authority delimiter that can start a path. -/
theorem authDelim_char {y : Char} (had : authDelim y = true)
    (h1 : (y != '?') = true) (h2 : (y != '#') = true) : y = '/' := by
  have h3 : y = '/' ∨ y = '?' ∨ y = '#' := by
    unfold authDelim at had
    simp only [Bool.or_eq_true, beq_iff_eq] at had
    tauto
  rcases h3 with h | h | h
  · exact h
  · exact absurd h (bne_iff_ne.mp h1)
  · exact absurd h (bne_iff_ne.mp h2)

/-- The head surviving a `dropWhile` fails the predicate. -/
theorem dropWhile_head_false {p : Char → Bool} : ∀ {l : List Char} {y : Char} {ys : List Char},
    l.dropWhile p = y :: ys → p y = false := by
  intro l
  induction l with
  | nil => intro y ys h; cases h
  | cons c cs ih =>
    intro y ys h
    rw [List.dropWhile_cons] at h
    by_cases hc : p c = true
    · rw [if_pos hc] at h
      exact ih h
    · rw [if_neg hc] at h
      injection h with h1 _
      rw [← h1]
      exact eqFalse hc

/-- If the tail after the authority is non-empty, it starts with a
delimiter; combined with `pathStop` it must be a slash. -/
theorem tail_head_slash (r3 : List Char) :
    (r3.dropWhile (fun c => !authDelim c)).takeWhile pathStop = [] ∨
      ∃ tl, (r3.dropWhile (fun c => !authDelim c)).takeWhile pathStop = '/' :: tl := by
  cases hX : r3.dropWhile (fun c => !authDelim c) with
  | nil => exact Or.inl rfl
  | cons y ys =>
    by_cases hpy : pathStop y = true
    · right
      have hhd : (!authDelim y) = false := dropWhile_head_false hX
      have had : authDelim y = true := by
        cases hcc : authDelim y
        · rw [hcc] at hhd
          cases hhd
        · rfl
      have hps : (y != '?') = true ∧ (y != '#') = true := by
        simpa [pathStop] using hpy
      have hy : y = '/' := authDelim_char had hps.1 hps.2
      rw [List.takeWhile_cons, if_pos hpy, hy]
      exact ⟨_, rfl⟩
    · left
      rw [List.takeWhile_cons, if_neg hpy]

/-- The defining equation of `parseUrl` on a cons. -/
theorem parseUrl_cons_eq (c0 : Char) (rest : List Char) :
    parseUrl (c0 :: rest) =
      (if c0.isAlpha = true then
        match (c0 :: rest).dropWhile schemeChar with
        | ':' :: '/' :: '/' :: r3 =>
          match parseAuthority (r3.takeWhile (fun c => !authDelim c)) with
          | some (ui, h, pt) =>
            some ⟨((c0 :: rest).takeWhile schemeChar).map Char.toLower, true, ui, h, pt,
              (parseTail (r3.dropWhile (fun c => !authDelim c))).1,
              (parseTail (r3.dropWhile (fun c => !authDelim c))).2.1,
              (parseTail (r3.dropWhile (fun c => !authDelim c))).2.2⟩
          | none => none
        | ':' :: r2 =>
          some ⟨((c0 :: rest).takeWhile schemeChar).map Char.toLower, false, none, [], none,
            (parseTail r2).1, (parseTail r2).2.1, (parseTail r2).2.2⟩
        | _ => none
      else none) := rfl

/-- Inversion of a successful parse: the well-formedness facts of each
component that the re-parse of the normalised output relies on. -/
theorem parseUrl_wf {l : List Char} {r : UrlRec} (h : parseUrl l = some r) :
    (∃ c cs, r.scheme = c :: cs ∧ c.isAlpha = true) ∧
      (∀ c ∈ r.scheme, schemeChar c = true) ∧
      r.scheme.map Char.toLower = r.scheme ∧
      (∀ c ∈ r.host, authDelim c = false ∧ c ≠ '@' ∧ c ≠ ':') ∧
      (∀ c ∈ r.path, pathStop c = true) ∧
      (r.hasAuth = true → r.path = [] ∨ ∃ tl, r.path = '/' :: tl) ∧
      (∀ qs, r.query = some qs → ∀ c ∈ qs, fragStop c = true) := by
  cases l with
  | nil => cases h
  | cons c0 rest =>
    rw [parseUrl_cons_eq] at h
    by_cases ha : c0.isAlpha = true
    case neg =>
      rw [if_neg ha] at h
      cases h
    rw [if_pos ha] at h
    have hsc0 : schemeChar c0 = true := by
      unfold schemeChar
      rw [ha]
      rfl
    have htw : (c0 :: rest).takeWhile schemeChar = c0 :: rest.takeWhile schemeChar := by
      rw [List.takeWhile_cons, if_pos hsc0]
    have hscheme :
        (∃ c cs, ((c0 :: rest).takeWhile schemeChar).map Char.toLower = c :: cs ∧
            c.isAlpha = true) ∧
          (∀ c ∈ ((c0 :: rest).takeWhile schemeChar).map Char.toLower, schemeChar c = true) ∧
          (((c0 :: rest).takeWhile schemeChar).map Char.toLower).map Char.toLower =
            ((c0 :: rest).takeWhile schemeChar).map Char.toLower := by
      refine ⟨⟨Char.toLower c0, (rest.takeWhile schemeChar).map Char.toLower,
        by rw [htw]; rfl, toLower_isAlpha ha⟩, ?_, map_toLower_idem _⟩
      intro c hc
      rcases List.mem_map.mp hc with ⟨x, hx, hxc⟩
      rw [← hxc]
      exact toLower_schemeChar (List.mem_takeWhile_imp hx)
    split at h
    · next r3 heqr3 =>
      split at h
      · next ui hst pt heq2 =>
        injection h with h3
        subst h3
        refine ⟨hscheme.1, hscheme.2.1, hscheme.2.2, ?_, ?_, ?_, ?_⟩
        · intro c hc
          have hin := parseAuthority_inv heq2 c hc
          have hmem := List.mem_takeWhile_imp hin.1
          have hdel : authDelim c = false := by
            cases hcc : authDelim c
            · rfl
            · rw [hcc] at hmem
              cases hmem
          exact ⟨hdel, hin.2.1, hin.2.2⟩
        · rw [parseTail_path]
          exact fun c hc => List.mem_takeWhile_imp hc
        · intro _
          rw [parseTail_path]
          exact tail_head_slash r3
        · intro qs hqs
          exact parseTail_query hqs
      · cases h
    · next r2 heqr2 =>
      injection h with h3
      subst h3
      refine ⟨hscheme.1, hscheme.2.1, hscheme.2.2, ?_, ?_, ?_, ?_⟩
      · intro c hc
        cases hc
      · rw [parseTail_path]
        exact fun c hc => List.mem_takeWhile_imp hc
      · intro hcontra
        cases hcontra
      · intro qs hqs
        exact parseTail_query hqs
    · next =>
      cases h

/-- `parseTail` of a clean path and optional clean query. -/
theorem parseTail_clean (path : List Char) (q : Option (List Char))
    (hp : ∀ c ∈ path, pathStop c = true)
    (hq : ∀ qs, q = some qs → ∀ c ∈ qs, fragStop c = true) :
    parseTail (path ++ renderQuery q) = (path, q, none) := by
  cases q with
  | none =>
    have h := takeWhile_append_frontier pathStop path [] hp (Or.inl rfl)
    have e : renderQuery none = ([] : List Char) := rfl
    unfold parseTail
    rw [e, h.2, h.1]
  | some qs =>
    have h := takeWhile_append_frontier pathStop path ('?' :: qs) hp
      (Or.inr ⟨'?', qs, rfl, by decide⟩)
    have e : renderQuery (some qs) = '?' :: qs := rfl
    have h2 : qs.dropWhile fragStop = [] := List.dropWhile_eq_nil_iff.mpr (hq qs rfl)
    have h3 : qs.takeWhile fragStop = qs := List.takeWhile_eq_self_iff.mpr (hq qs rfl)
    unfold parseTail
    rw [e, h.2, h.1]
    simp only [h2, h3]

/-- `parseAuthority` of a clean host. -/
theorem parseAuthority_clean (host : List Char)
    (hh : ∀ c ∈ host, c ≠ '@' ∧ c ≠ ':') :
    parseAuthority host = some (none, host, none) := by
  unfold parseAuthority
  rw [splitLast_none_of_not_mem (fun hm => (hh _ hm).1 rfl),
    splitFirst_none_of_not_mem (fun hm => (hh _ hm).2 rfl)]

/-- Re-parsing the authority-form render of clean components recovers them
exactly (with the scheme lowercased, and no userinfo, port or fragment). -/
theorem parseUrl_render (scheme host path : List Char) (q : Option (List Char))
    (hs1 : ∃ c cs, scheme = c :: cs ∧ c.isAlpha = true)
    (hs3 : ∀ c ∈ scheme, schemeChar c = true)
    (hh : ∀ c ∈ host, authDelim c = false ∧ c ≠ '@' ∧ c ≠ ':')
    (hp : ∀ c ∈ path, pathStop c = true)
    (hp2 : path = [] ∨ ∃ tl, path = '/' :: tl)
    (hq : ∀ qs, q = some qs → ∀ c ∈ qs, fragStop c = true) :
    parseUrl (scheme ++ ':' :: '/' :: '/' :: (host ++ (path ++ renderQuery q))) =
      some ⟨scheme.map Char.toLower, true, none, host, none, path, q, none⟩ := by
  obtain ⟨c0, cs, hsc, hsa⟩ := hs1
  subst hsc
  have hsc0 : schemeChar c0 = true := hs3 c0 (List.mem_cons_self _ _)
  have hfr := takeWhile_append_frontier schemeChar cs
    (':' :: '/' :: '/' :: (host ++ (path ++ renderQuery q)))
    (fun x hx => hs3 x (List.mem_cons_of_mem _ hx))
    (Or.inr ⟨':', _, rfl, by decide⟩)
  have hdw : (c0 :: (cs ++ ':' :: '/' :: '/' :: (host ++ (path ++ renderQuery q)))).dropWhile
      schemeChar = ':' :: '/' :: '/' :: (host ++ (path ++ renderQuery q)) := by
    rw [List.dropWhile_cons, if_pos hsc0, hfr.2]
  have htw : (c0 :: (cs ++ ':' :: '/' :: '/' :: (host ++ (path ++ renderQuery q)))).takeWhile
      schemeChar = c0 :: cs := by
    rw [List.takeWhile_cons, if_pos hsc0, hfr.1]
  have hfrontier : path ++ renderQuery q = [] ∨
      ∃ y t, path ++ renderQuery q = y :: t ∧ (fun c => !authDelim c) y = false := by
    rcases hp2 with hpe | ⟨tl, hptl⟩
    · subst hpe
      cases q with
      | none => exact Or.inl rfl
      | some qs => exact Or.inr ⟨'?', qs, rfl, by decide⟩
    · right
      refine ⟨'/', tl ++ renderQuery q, ?_, by decide⟩
      rw [hptl]
      rfl
  have hfr2 := takeWhile_append_frontier (fun c => !authDelim c) host (path ++ renderQuery q)
    (fun x hx => by
      show (!authDelim x) = true
      rw [(hh x hx).1]
      rfl) hfrontier
  have hauth := parseAuthority_clean host (fun c hc => ⟨(hh c hc).2.1, (hh c hc).2.2⟩)
  have htail := parseTail_clean path q hp hq
  rw [List.cons_append, parseUrl_cons_eq, if_pos hsa, hdw]
  simp only [hfr2.1, hfr2.2, hauth, htail, htw]

/-- `queryPart` in render form. -/
theorem queryPart_eq_renderQuery (q : Option (List Char)) :
    queryPart q =
      renderQuery (if hasSearchVal q then some (serializeQuery (keptVal q)) else none) := by
  rw [queryPart_eq]
  by_cases h : hasSearchVal q = true
  · rw [if_pos h, if_pos h]
    rfl
  · rw [if_neg h, if_neg h]
    rfl

/-- The kept pairs are well-formed. -/
theorem keptVal_wf (q : Option (List Char)) : ∀ p ∈ keptVal q, PairWF p :=
  fun p hp => parseQuery_wf p (List.mem_filter.mp hp).1

/-- The kept pairs are not tracking parameters. -/
theorem keptVal_no_tracking (q : Option (List Char)) :
    ∀ p ∈ keptVal q, isTracking p.1 = false := by
  intro p hp
  have h2 := (List.mem_filter.mp hp).2
  cases hcc : isTracking p.1
  · rfl
  · rw [hcc] at h2
    cases h2

/-- Normalising the normalised query is a no-op: the serialised kept list
re-parses to itself, keeps everything, and its `url.search` truthiness is
stable (given the degenerate all-empty-segments queries are excluded). -/
theorem queryPart_roundtrip (q : Option (List Char))
    (hg : q.getD [] ≠ [] → parseQuery (q.getD []) ≠ []) :
    queryPart (if hasSearchVal q then some (serializeQuery (keptVal q)) else none) =
      queryPart q := by
  by_cases h : hasSearchVal q = true
  · rw [if_pos h]
    have hK : parseQuery (serializeQuery (keptVal q)) = keptVal q :=
      parseQuery_serializeQuery _ (keptVal_wf q)
    have hKnt := keptVal_no_tracking q
    have hKne : keptVal q ≠ [] := by
      unfold hasSearchVal at h
      by_cases hm : (parseQuery (q.getD [])).any (fun p => isTracking p.1) = true
      · rw [if_pos hm] at h
        intro hc
        rw [hc] at h
        cases h
      · rw [if_neg hm] at h
        have hraw : q.getD [] ≠ [] := by
          intro hc
          rw [hc] at h
          cases h
        have hkeq : keptVal q = parseQuery (q.getD []) := by
          unfold keptVal
          apply List.filter_eq_self.mpr
          intro p hp
          have h2 := List.any_eq_true.not.mp (by rw [eqFalse hm]; simp)
          push_neg at h2
          simp [h2 p hp]
        rw [hkeq]
        exact hg hraw
    have hsne : serializeQuery (keptVal q) ≠ [] := serializeQuery_ne_nil hKne
    have hmut2 : (parseQuery (serializeQuery (keptVal q))).any
        (fun p => isTracking p.1) = false := by
      rw [hK]
      cases hcc : (keptVal q).any (fun p => isTracking p.1)
      · rfl
      · obtain ⟨p, hp, hpt⟩ := List.any_eq_true.mp hcc
        rw [hKnt p hp] at hpt
        cases hpt
    have hkept2 : keptVal (some (serializeQuery (keptVal q))) = keptVal q := by
      show (parseQuery (serializeQuery (keptVal q))).filter (fun p => !isTracking p.1) = _
      rw [hK]
      apply List.filter_eq_self.mpr
      intro p hp
      rw [hKnt p hp]
      rfl
    have hsv2 : hasSearchVal (some (serializeQuery (keptVal q))) = true := by
      show (if (parseQuery (serializeQuery (keptVal q))).any (fun p => isTracking p.1) then
        !(keptVal (some (serializeQuery (keptVal q)))).isEmpty
        else !(serializeQuery (keptVal q)).isEmpty) = true
      rw [hmut2, if_neg Bool.false_ne_true, isEmpty_false_of_ne_nil hsne]
      rfl
    rw [queryPart_eq, queryPart_eq, hsv2, h, if_pos rfl, if_pos rfl, hkept2]
  · rw [if_neg h]
    rw [queryPart_eq, queryPart_eq, eqFalse h,
      show hasSearchVal none = false from rfl,
      if_neg Bool.false_ne_true, if_neg Bool.false_ne_true]

/-- C3 (amended): `normalizeUrl` is idempotent on every URL that parses
with an authority (`//`) component, provided its query does not consist
solely of empty `&`-segments.  (Opaque-path URLs such as `mailto:` ones,
and the degenerate queries, are genuine non-idempotence cases — see the
counterexample.) -/
theorem claim3_normalizeUrl_idem (s : String) (r : UrlRec)
    (h : parseUrl s.data = some r) (hauth : r.hasAuth = true)
    (hg : r.query.getD [] ≠ [] → parseQuery (r.query.getD []) ≠ []) :
    normalizeUrl (normalizeUrl s) = normalizeUrl s := by
  obtain ⟨wf1, wf2, wf3, wf4, wf5, wf6, wf7⟩ := parseUrl_wf h
  rw [normalizeUrl_of_parse h]
  have hshape : normalizeUrlRec r =
      r.scheme ++ ':' :: '/' :: '/' :: (r.host.map Char.toLower ++
        (stripTrailingSlashes r.path ++
          renderQuery (if hasSearchVal r.query then
            some (serializeQuery (keptVal r.query)) else none))) := by
    unfold normalizeUrlRec
    rw [queryPart_eq_renderQuery]
    simp [List.cons_append, List.append_assoc]
  have hq' : ∀ qs, (if hasSearchVal r.query then
      some (serializeQuery (keptVal r.query)) else none) = some qs →
      ∀ c ∈ qs, fragStop c = true := by
    intro qs hqs c hc
    by_cases hsv : hasSearchVal r.query = true
    · rw [if_pos hsv] at hqs
      injection hqs with hqs2
      subst hqs2
      rcases mem_serializeQuery hc with h1 | h1 | ⟨p, hp, h1⟩
      · subst h1
        rfl
      · subst h1
        rfl
      · have hpq : p ∈ parseQuery (r.query.getD []) := (List.mem_filter.mp hp).1
        have hchars := parseQuery_chars p hpq
        have hcraw : c ∈ r.query.getD [] := by
          rcases h1 with h2 | h2
          · exact hchars.1 c h2
          · exact hchars.2 c h2
        cases hrq : r.query with
        | none =>
          rw [hrq] at hcraw
          cases hcraw
        | some raw =>
          exact wf7 raw hrq c (by rw [hrq] at hcraw; exact hcraw)
    · rw [if_neg hsv] at hqs
      cases hqs
  have hrender := parseUrl_render r.scheme (r.host.map Char.toLower)
    (stripTrailingSlashes r.path)
    (if hasSearchVal r.query then some (serializeQuery (keptVal r.query)) else none)
    wf1 wf2
    (by
      intro c hc
      rcases List.mem_map.mp hc with ⟨x, hx, hxc⟩
      rw [← hxc]
      exact toLower_hostChar (wf4 x hx).1 (wf4 x hx).2.1 (wf4 x hx).2.2)
    (fun c hc => wf5 c (mem_strip hc))
    (by
      rcases wf6 hauth with hpe | ⟨tl, hptl⟩
      · left
        rw [hpe]
        rfl
      · exact strip_head hptl)
    hq'
  have hparse2 : parseUrl (String.mk (normalizeUrlRec r)).data =
      some ⟨r.scheme.map Char.toLower, true, none, r.host.map Char.toLower, none,
        stripTrailingSlashes r.path,
        (if hasSearchVal r.query then some (serializeQuery (keptVal r.query)) else none),
        none⟩ := by
    show parseUrl (normalizeUrlRec r) = _
    rw [hshape]
    exact hrender
  rw [normalizeUrl_of_parse hparse2]
  apply congrArg String.mk
  show r.scheme.map Char.toLower ++ ':' :: '/' :: '/' ::
      (r.host.map Char.toLower).map Char.toLower ++
      stripTrailingSlashes (stripTrailingSlashes r.path) ++
      queryPart (if hasSearchVal r.query then
        some (serializeQuery (keptVal r.query)) else none) =
    r.scheme ++ ':' :: '/' :: '/' :: r.host.map Char.toLower ++
      stripTrailingSlashes r.path ++ queryPart r.query
  rw [wf3, map_toLower_idem, strip_idem, queryPart_roundtrip r.query hg]

/-- C3 witness: a URL with host case, trailing slash, a kept query
parameter and a fragment is already stable after one normalisation. -/
theorem claim3_witness :
    normalizeUrl (normalizeUrl "http://X.com/a/?b=2#f") =
      normalizeUrl "http://X.com/a/?b=2#f" :=
  claim3_normalizeUrl_idem "http://X.com/a/?b=2#f"
    ⟨"http".data, true, none, "X.com".data, none, "/a/".data, some "b=2".data, some "f".data⟩
    (by decide) rfl (fun _ => by decide)

/-- C3 counterexample: two URLs that parse successfully but are not
idempotent under `normalizeUrl`: an authority URL whose query consists of a
single empty segment (the stray `?` survives one pass and dies on the
second), and an opaque-path `mailto:` URL (the rebuilt `//` form re-parses
with an authority, swallowing the mailbox's local part). -/
theorem claim3_counterexample :
    (parseUrl "http://x.com/?&".data).isSome = true ∧
      normalizeUrl (normalizeUrl "http://x.com/?&") ≠ normalizeUrl "http://x.com/?&" ∧
      normalizeUrl "http://x.com/?&" = "http://x.com?" ∧
      normalizeUrl (normalizeUrl "http://x.com/?&") = "http://x.com" ∧
      (parseUrl "mailto:a@b.com".data).isSome = true ∧
      normalizeUrl (normalizeUrl "mailto:a@b.com") ≠ normalizeUrl "mailto:a@b.com" ∧
      normalizeUrl "mailto:a@b.com" = "mailto://a@b.com" ∧
      normalizeUrl (normalizeUrl "mailto:a@b.com") = "mailto://b.com" := by
  decide

end NorthStream
